import Mathlib

/-!
Verification development for the idadv_dash_simulator progression engine.

This file gives a shallow embedding, in Lean 4, of the core simulation code:

* `idadv_dash_simulator/workflow/location.py`  (`Location`)
* `idadv_dash_simulator/workflow/balance.py`   (`Balance`)
* `idadv_dash_simulator/workflow/workflow.py`  (`Workflow.simulate`,
  `Workflow._do_actions`, `Workflow._try_upgrade_character`)
* `idadv_dash_simulator/workflow/tapping.py`   (`TappingEngine`)
* the relevant dataclasses of `idadv_dash_simulator/models/config.py`

Modelling conventions:

* Python `float` money/energy quantities are modelled as exact rationals `ℚ`
  (so `0.7` is `7/10` and `0.1` is `1/10`); non-negative integer quantities
  (xp, keys, costs, cooldowns, timestamps, levels) are modelled as `ℕ`.
* Python dicts with contiguous integer keys `1..max(keys)` (location level
  tables, the user-level table, the cooldown table) are modelled as a total
  function together with the maximal key; the engine assumes a validated
  configuration (spec §7) and never looks up a missing key on the happy path.
  The `dict.get(key, default)` lookup of `Location.levels` is modelled with an
  explicit bounds check.
* The ordered dict `Workflow.locations` is modelled as an association list in
  insertion order.  `sorted(...)` is modelled with `List.insertionSort`.
* The mutation of the open history entry `history[-1]` is modelled by
  threading the open `StateRec` explicitly; `simulate` returns
  `sealed states ++ [open state]`, exactly the Python `history` list.
* The two unbounded `while` loops (`simulate`'s outer loop and the in-session
  upgrade loop) are given explicit fuel; running out of fuel in the outer loop
  yields `none` (the Python run would still be going), running out of fuel in
  the in-session loop merely ends the session early (which only ever shortens
  the produced history).  The Python engine has no other source of
  non-termination: `_try_upgrade_character` terminates structurally.
-/

set_option linter.unusedVariables false

namespace IdleSim

/-- Iterate a function `n` times (used for the fixed-count loops of
`TappingEngine._simulate_session`). -/
def iterN {α : Type} (f : α → α) : ℕ → α → α
  | 0, s => s
  | n + 1, s => iterN f n (f s)

/-- Python's binary `min` on rationals, written out so that it reduces in the
kernel (`Mathlib`'s lattice `min` on `ℚ` does not). -/
def ratMin (a b : ℚ) : ℚ := if a ≤ b then a else b

theorem ratMin_le_left (a b : ℚ) : ratMin a b ≤ a := by
  unfold ratMin
  split
  · exact le_refl a
  · rename_i h
    exact le_of_lt (lt_of_not_le h)

theorem ratMin_le_right (a b : ℚ) : ratMin a b ≤ b := by
  unfold ratMin
  split
  · assumption
  · exact le_refl b

theorem le_ratMin {a b c : ℚ} (h1 : c ≤ a) (h2 : c ≤ b) : c ≤ ratMin a b := by
  unfold ratMin
  split
  · exact h1
  · exact h2

/-- `models/config.py` `LocationLevel`: per-level upgrade cost and xp reward. -/
structure LocationLevel where
  cost : ℕ
  xp_reward : ℕ
deriving DecidableEq, Repr

/-- `models/config.py` `UserLevelConfig`: xp threshold for reaching the next
level, passive income rate at this level, keys granted on reaching this
level. -/
structure UserLevelConfig where
  xp_required : ℕ
  gold_per_sec : ℚ
  keys_reward : ℕ
deriving DecidableEq

/-- `models/config.py` `StartingBalanceConfig`. -/
structure StartingBalanceConfig where
  gold : ℚ
  xp : ℕ
  keys : ℕ
deriving DecidableEq

/-- `models/config.py` `EconomyConfig` (the engine only reads
`starting_balance` and `game_duration`; `base_gold_per_sec` and
`earn_coefficient` are consumed by the out-of-scope config builder). -/
structure EconomyConfig where
  starting_balance : StartingBalanceConfig
  game_duration : ℕ
deriving DecidableEq

/-- `models/config.py` `SimulationAlgorithm`. -/
inductive SimulationAlgorithm where
  | SEQUENTIAL
  | FIRST_AVAILABLE
deriving DecidableEq, Repr

/-- `models/config.py` `TappingConfig`, with the `gold_per_tap` attribute that
`workflow.py` and `tapping.py` read (the dashboard layer constructs the config
with this attribute).  The `None`-defaulting of `max_energy_capacity` and
`gold_per_tap` in `workflow.py` is dead in this model because the fields are
total. -/
structure TappingConfig where
  is_tapping : Bool
  max_energy_capacity : ℕ
  tap_speed : ℚ
  gold_per_tap : ℚ
deriving DecidableEq

/-- `workflow/balance.py` `Balance`. -/
structure Balance where
  gold : ℚ
  xp : ℕ
  keys : ℕ
  user_level : ℕ
  earn_per_sec : ℚ
deriving DecidableEq

/-- `workflow/location.py` `Location`.  `levels` is the per-level table
(contiguous keys `1..numLevels`); `numLevels` is Python's
`max(self.levels.keys())`.  The unused `rarity` field is omitted from the
model (the engine never reads it). -/
structure Location where
  min_character_level : ℕ
  numLevels : ℕ
  levels : ℕ → LocationLevel
  keys : ℕ
  available : Bool
  current_level : ℕ
  cooldown_until : ℕ

/-- Python `self.levels.get(lvl, LocationLevel(0, 0))`. -/
def Location.getLevel (loc : Location) (lvl : ℕ) : LocationLevel :=
  if 1 ≤ lvl ∧ lvl ≤ loc.numLevels then loc.levels lvl else ⟨0, 0⟩

/-- `Location.get_upgrade_cost`. -/
def Location.get_upgrade_cost (loc : Location) : ℕ :=
  (loc.getLevel (loc.current_level + 1)).cost

/-- `Location.get_upgrade_xp_reward`. -/
def Location.get_upgrade_xp_reward (loc : Location) : ℕ :=
  (loc.getLevel (loc.current_level + 1)).xp_reward

/-- `Location.is_last_upgrade`: `max(self.levels.keys()) == self.current_level + 1`. -/
def Location.is_last_upgrade (loc : Location) : Bool :=
  loc.numLevels == loc.current_level + 1

/-- `Location.get_upgrade_keys_reward`. -/
def Location.get_upgrade_keys_reward (loc : Location) : ℕ :=
  if loc.is_last_upgrade then loc.keys else 0

/-! ## Tapping engine (`workflow/tapping.py`) -/

/-- `tapping.py` `TapSession`.  `energy_used` and `taps_count` are declared
`int` in the dataclass but accumulate float increments at runtime; they are
modelled as `ℚ`. -/
structure TapSession where
  start_time : ℕ
  duration : ℕ
  energy_used : ℚ
  taps_count : ℚ
  gold_earned : ℚ
  energy_history : List (ℕ × ℚ)
deriving DecidableEq

/-- `tapping.py` `TapDay`. -/
structure TapDay where
  day : ℕ
  sessions : List TapSession
  total_taps : ℚ
  total_energy : ℚ
  total_gold : ℚ
deriving DecidableEq

/-- The loop state of `TappingEngine._simulate_session`. -/
structure TapLoopState where
  current_energy : ℚ
  session : TapSession
  active_tapping : Bool
  total_taps_in_session : ℚ
  current_time : ℕ
deriving DecidableEq

/-- Python `max_taps_for_beginners`:
`min(cap, 500 + int((700 - 500) * (cap / 700)))` when `cap ≤ 700`
(the float `int(...)` truncation is `ℕ` division here), else `cap`. -/
def maxTapsForBeginners (cfg : TappingConfig) : ℕ :=
  if cfg.max_energy_capacity ≤ 700 then
    min cfg.max_energy_capacity (500 + 200 * cfg.max_energy_capacity / 700)
  else cfg.max_energy_capacity

/-- One second of energy regeneration:
`if cur < cap: cur += min(0.1, cap - cur)`. -/
def tapRegen (cfg : TappingConfig) (e : ℚ) : ℚ :=
  if e < (cfg.max_energy_capacity : ℚ) then
    e + ratMin (1/10 : ℚ) ((cfg.max_energy_capacity : ℚ) - e)
  else e

/-- Record the advance of one second: bump `current_time`, regenerate, and
append the `(time, energy)` pair to the session's energy history. -/
def tapTick (cfg : TappingConfig) (s : TapLoopState) : TapLoopState :=
  let e := tapRegen cfg s.current_energy
  let t := s.current_time + 1
  { s with
    current_energy := e
    current_time := t
    session := { s.session with energy_history := s.session.energy_history ++ [(t, e)] } }

/-- The number of taps attempted in one second:
`min(tap_speed, current_energy)`, further capped by the beginners' remaining
allowed taps when `max_energy_capacity ≤ 700`. -/
def tapsPerSecond (cfg : TappingConfig) (s : TapLoopState) : ℚ :=
  if cfg.max_energy_capacity ≤ 700 then
    ratMin (ratMin cfg.tap_speed s.current_energy)
      ((maxTapsForBeginners cfg : ℚ) - s.total_taps_in_session)
  else ratMin cfg.tap_speed s.current_energy

/-- The tap-consumption part of one active-loop iteration (the body of
`if active_tapping and self.current_energy > 0`), without the trailing
regeneration/clock advance. -/
def tapDrain (cfg : TappingConfig) (s : TapLoopState) : TapLoopState :=
  let taps := tapsPerSecond cfg s
  if taps ≤ 0 then
    { s with active_tapping := false }
  else
    let s1 : TapLoopState :=
      { s with
        current_energy := s.current_energy - taps
        session :=
          { s.session with
            energy_used := s.session.energy_used + taps
            taps_count := s.session.taps_count + taps
            gold_earned := s.session.gold_earned + taps * cfg.gold_per_tap }
        total_taps_in_session := s.total_taps_in_session + taps }
    if s1.current_energy ≤ 0 ∨
        (cfg.max_energy_capacity ≤ 700 ∧
          (maxTapsForBeginners cfg : ℚ) ≤ s1.total_taps_in_session) then
      { s1 with active_tapping := false }
    else s1

/-- One iteration of the active-tapping loop of `_simulate_session`
(the `while remaining_time > 0` loop body). -/
def tapActiveStep (cfg : TappingConfig) (s : TapLoopState) : TapLoopState :=
  if s.active_tapping = true ∧ 0 < s.current_energy then
    tapTick cfg (tapDrain cfg s)
  else
    tapTick cfg s

/-- One iteration of the trailing pure-regeneration loop of
`_simulate_session` (`for i in range(remaining_session_time)`). -/
def tapTrailStep (cfg : TappingConfig) (s : TapLoopState) : TapLoopState :=
  tapTick cfg s

/-- `TappingEngine._simulate_session`.  Returns the recorded session and the
engine's `current_energy` after the session. -/
def simulate_session (cfg : TappingConfig) (current_energy : ℚ)
    (start_time duration : ℕ) : TapSession × ℚ :=
  let session0 : TapSession :=
    { start_time := start_time, duration := duration, energy_used := 0,
      taps_count := 0, gold_earned := 0,
      energy_history := [(start_time, current_energy)] }
  let maxTappingTime := if cfg.max_energy_capacity ≤ 700 then 300 else 420
  let s0 : TapLoopState :=
    { current_energy := current_energy, session := session0,
      active_tapping := true, total_taps_in_session := 0,
      current_time := start_time }
  let s1 := iterN (tapActiveStep cfg) (min duration maxTappingTime) s0
  let s2 := iterN (tapTrailStep cfg) (duration - maxTappingTime) s1
  (s2.session, s2.current_energy)

/-- `TappingEngine._get_or_create_day` plus the per-day aggregation done in
`simulate_sessions` (append the session and add its totals). -/
def addSessionToDay : List TapDay → ℕ → TapSession → List TapDay
  | [], d, s =>
    [{ day := d, sessions := [s], total_taps := s.taps_count,
       total_energy := s.energy_used, total_gold := s.gold_earned }]
  | day :: rest, d, s =>
    if day.day = d then
      { day with
        sessions := day.sessions ++ [s]
        total_taps := day.total_taps + s.taps_count
        total_energy := day.total_energy + s.energy_used
        total_gold := day.total_gold + s.gold_earned } :: rest
    else day :: addSessionToDay rest d s

/-- The main loop of `TappingEngine.simulate_sessions` over the (sorted)
session start times.  Arguments: remaining start times, session duration in
seconds, current energy, `last_session_end`, accumulated `days_data`. -/
def sessionsFold (cfg : TappingConfig) :
    List ℕ → ℕ → ℚ → ℕ → List TapDay → List TapDay × ℚ
  | [], _, e, _, days => (days, e)
  | session_start :: rest, dur, e, last_session_end, days =>
    let e1 :=
      if 0 < last_session_end then
        e + ratMin (((session_start : ℚ) - (last_session_end : ℚ)) * (1/10 : ℚ))
            ((cfg.max_energy_capacity : ℚ) - e)
      else e
    let se := simulate_session cfg e1 session_start dur
    let days1 := addSessionToDay days (session_start / 86400) se.1
    sessionsFold cfg rest dur se.2 (session_start + dur) days1

/-- `TappingEngine.simulate_sessions`.  `session_duration` is in minutes; the
engine starts with a full energy gauge and sorts the session times. -/
def simulate_sessions (cfg : TappingConfig) (session_times : List ℕ)
    (session_duration : ℕ) : List TapDay :=
  if cfg.is_tapping then
    (sessionsFold cfg (List.insertionSort (· ≤ ·) session_times)
      (session_duration * 60) (cfg.max_energy_capacity : ℚ) 0 []).1
  else []

/-- All energy values recorded in a session's `energy_history`. -/
def sessionEnergies (s : TapSession) : List ℚ :=
  s.energy_history.map Prod.snd

/-- All energy values recorded anywhere in a `simulate_sessions` result. -/
def allEnergies (days : List TapDay) : List ℚ :=
  days.foldr (fun d acc => (d.sessions.foldr (fun s a => sessionEnergies s ++ a) []) ++ acc) []

/-- Energy-gauge invariant for the in-session loop state: the gauge and every
recorded history value lie in `[0, max_energy_capacity]`. -/
def TapInv (cfg : TappingConfig) (s : TapLoopState) : Prop :=
  0 ≤ s.current_energy ∧ s.current_energy ≤ (cfg.max_energy_capacity : ℚ) ∧
    ∀ e ∈ sessionEnergies s.session, 0 ≤ e ∧ e ≤ (cfg.max_energy_capacity : ℚ)

theorem tapRegen_nonneg (cfg : TappingConfig) (e : ℚ) (h0 : 0 ≤ e) :
    0 ≤ tapRegen cfg e := by
  unfold tapRegen
  split
  · rename_i hlt
    have h1 : (0 : ℚ) ≤ ratMin (1/10 : ℚ) ((cfg.max_energy_capacity : ℚ) - e) :=
      le_ratMin (by norm_num) (by linarith)
    linarith
  · exact h0

theorem tapRegen_le (cfg : TappingConfig) (e : ℚ)
    (h1 : e ≤ (cfg.max_energy_capacity : ℚ)) :
    tapRegen cfg e ≤ (cfg.max_energy_capacity : ℚ) := by
  unfold tapRegen
  split
  · have h2 : ratMin (1/10 : ℚ) ((cfg.max_energy_capacity : ℚ) - e) ≤
        (cfg.max_energy_capacity : ℚ) - e := ratMin_le_right _ _
    linarith
  · exact h1

theorem tapTick_inv {cfg : TappingConfig} {s : TapLoopState} (h : TapInv cfg s) :
    TapInv cfg (tapTick cfg s) := by
  obtain ⟨h0, h1, hh⟩ := h
  refine ⟨tapRegen_nonneg cfg _ h0, tapRegen_le cfg _ h1, ?_⟩
  intro e he
  simp only [tapTick, sessionEnergies, List.map_append, List.mem_append] at he
  rcases he with he | he
  · exact hh e he
  · simp at he
    subst he
    exact ⟨tapRegen_nonneg cfg _ h0, tapRegen_le cfg _ h1⟩

theorem tapsPerSecond_le {cfg : TappingConfig} {s : TapLoopState} :
    tapsPerSecond cfg s ≤ s.current_energy := by
  unfold tapsPerSecond
  split
  · exact le_trans (ratMin_le_left _ _) (ratMin_le_right _ _)
  · exact ratMin_le_right _ _

theorem tapDrain_inv {cfg : TappingConfig} {s : TapLoopState}
    (h : TapInv cfg s) : TapInv cfg (tapDrain cfg s) := by
  obtain ⟨h0, h1, hh⟩ := h
  have htle : tapsPerSecond cfg s ≤ s.current_energy := tapsPerSecond_le
  unfold tapDrain
  dsimp only
  split
  · exact ⟨h0, h1, hh⟩
  · rename_i hpos
    push_neg at hpos
    split
    · refine ⟨?_, ?_, hh⟩
      · show (0 : ℚ) ≤ s.current_energy - tapsPerSecond cfg s
        linarith
      · show s.current_energy - tapsPerSecond cfg s ≤ (cfg.max_energy_capacity : ℚ)
        linarith
    · refine ⟨?_, ?_, hh⟩
      · show (0 : ℚ) ≤ s.current_energy - tapsPerSecond cfg s
        linarith
      · show s.current_energy - tapsPerSecond cfg s ≤ (cfg.max_energy_capacity : ℚ)
        linarith

theorem tapActiveStep_inv {cfg : TappingConfig} {s : TapLoopState}
    (h : TapInv cfg s) : TapInv cfg (tapActiveStep cfg s) := by
  unfold tapActiveStep
  split
  · exact tapTick_inv (tapDrain_inv h)
  · exact tapTick_inv h

theorem iterN_inv {α : Type} {P : α → Prop} {f : α → α}
    (hf : ∀ s, P s → P (f s)) :
    ∀ (n : ℕ) (s : α), P s → P (iterN f n s)
  | 0, s, h => h
  | n + 1, s, h => iterN_inv hf n (f s) (hf s h)

theorem simulate_session_inv (cfg : TappingConfig) (e : ℚ)
    (start dur : ℕ) (h0 : 0 ≤ e) (h1 : e ≤ (cfg.max_energy_capacity : ℚ)) :
    (∀ x ∈ sessionEnergies (simulate_session cfg e start dur).1,
        0 ≤ x ∧ x ≤ (cfg.max_energy_capacity : ℚ)) ∧
      0 ≤ (simulate_session cfg e start dur).2 ∧
      (simulate_session cfg e start dur).2 ≤ (cfg.max_energy_capacity : ℚ) := by
  have base : TapInv cfg
      ⟨e, ⟨start, dur, 0, 0, 0, [(start, e)]⟩, true, 0, start⟩ := by
    refine ⟨h0, h1, ?_⟩
    intro x hx
    simp [sessionEnergies] at hx
    subst hx
    exact ⟨h0, h1⟩
  have step1 := iterN_inv (P := TapInv cfg) (fun s hs => tapActiveStep_inv hs)
    (min dur (if cfg.max_energy_capacity ≤ 700 then 300 else 420)) _ base
  have step2 := iterN_inv (P := TapInv cfg) (fun s hs => tapTick_inv hs)
    (dur - (if cfg.max_energy_capacity ≤ 700 then 300 else 420)) _ step1
  obtain ⟨a, b, c⟩ := step2
  exact ⟨c, a, b⟩

theorem addSessionToDay_energies {cfg : TappingConfig} :
    ∀ (days : List TapDay) (d : ℕ) (s : TapSession),
      (∀ day ∈ days, ∀ ses ∈ day.sessions, ∀ x ∈ sessionEnergies ses,
        0 ≤ x ∧ x ≤ (cfg.max_energy_capacity : ℚ)) →
      (∀ x ∈ sessionEnergies s, 0 ≤ x ∧ x ≤ (cfg.max_energy_capacity : ℚ)) →
      ∀ day ∈ addSessionToDay days d s, ∀ ses ∈ day.sessions,
        ∀ x ∈ sessionEnergies ses, 0 ≤ x ∧ x ≤ (cfg.max_energy_capacity : ℚ)
  | [], d, s, hdays, hs => by
    simp [addSessionToDay]
    exact hs
  | day :: rest, d, s, hdays, hs => by
    simp only [addSessionToDay]
    split
    · intro dd hdd ses hses x hx
      simp at hdd
      rcases hdd with hdd | hdd
      · subst hdd
        simp at hses
        rcases hses with hses | hses
        · exact hdays day (by simp) ses hses x hx
        · subst hses
          exact hs x hx
      · exact hdays dd (by simp [hdd]) ses hses x hx
    · intro dd hdd ses hses x hx
      simp at hdd
      rcases hdd with hdd | hdd
      · subst hdd
        exact hdays dd (by simp) ses hses x hx
      · exact addSessionToDay_energies rest d s
          (fun dy hdy => hdays dy (by simp [hdy])) hs dd hdd ses hses x hx

theorem sessionsFold_inv (cfg : TappingConfig) :
    ∀ (times : List ℕ) (dur : ℕ) (e : ℚ) (lastEnd : ℕ) (days : List TapDay),
      0 ≤ e → e ≤ (cfg.max_energy_capacity : ℚ) →
      (∀ day ∈ days, ∀ ses ∈ day.sessions, ∀ x ∈ sessionEnergies ses,
        0 ≤ x ∧ x ≤ (cfg.max_energy_capacity : ℚ)) →
      List.Chain' (fun a b => a + dur ≤ b) times →
      (lastEnd = 0 ∨ ∀ x ∈ times.head?, lastEnd ≤ x) →
      ∀ day ∈ (sessionsFold cfg times dur e lastEnd days).1,
        ∀ ses ∈ day.sessions, ∀ x ∈ sessionEnergies ses,
          0 ≤ x ∧ x ≤ (cfg.max_energy_capacity : ℚ)
  | [], dur, e, lastEnd, days, h0, h1, hdays, hch, hle => by
    simpa [sessionsFold] using hdays
  | session_start :: rest, dur, e, lastEnd, days, h0, h1, hdays, hch, hle => by
    have hrest : List.Chain' (fun a b => a + dur ≤ b) rest := hch.tail
    have hle' : session_start + dur = 0 ∨
        ∀ x ∈ rest.head?, session_start + dur ≤ x := by
      right
      intro x hx
      cases rest with
      | nil => simp at hx
      | cons y ys =>
        simp at hx
        subst hx
        exact (List.chain'_cons.mp hch).1
    by_cases hpos : 0 < lastEnd
    · have hgap : (lastEnd : ℚ) ≤ (session_start : ℚ) := by
        rcases hle with hle | hle
        · omega
        · exact_mod_cast hle session_start (by simp)
      have hmin0 : (0 : ℚ) ≤ ratMin (((session_start : ℚ) - (lastEnd : ℚ)) * (1/10 : ℚ))
          ((cfg.max_energy_capacity : ℚ) - e) :=
        le_ratMin (by nlinarith) (by linarith)
      have hmin1 : ratMin (((session_start : ℚ) - (lastEnd : ℚ)) * (1/10 : ℚ))
          ((cfg.max_energy_capacity : ℚ) - e) ≤ (cfg.max_energy_capacity : ℚ) - e :=
        ratMin_le_right _ _
      have h0' : 0 ≤ e + ratMin (((session_start : ℚ) - (lastEnd : ℚ)) * (1/10 : ℚ))
          ((cfg.max_energy_capacity : ℚ) - e) := by linarith
      have h1' : e + ratMin (((session_start : ℚ) - (lastEnd : ℚ)) * (1/10 : ℚ))
          ((cfg.max_energy_capacity : ℚ) - e) ≤ (cfg.max_energy_capacity : ℚ) := by
        linarith
      have hsession := simulate_session_inv cfg _ session_start dur h0' h1'
      simp only [sessionsFold, if_pos hpos]
      exact sessionsFold_inv cfg rest dur _ _ _
        hsession.2.1 hsession.2.2
        (addSessionToDay_energies days _ _ hdays hsession.1)
        hrest hle'
    · have hsession := simulate_session_inv cfg e session_start dur h0 h1
      simp only [sessionsFold, if_neg hpos]
      exact sessionsFold_inv cfg rest dur _ _ _
        hsession.2.1 hsession.2.2
        (addSessionToDay_energies days _ _ hdays hsession.1)
        hrest hle'

/-- Decidable non-overlap condition on a list of session start times: each
start time is at least the previous session's end (`previous start + durSec`). -/
def sessionsNonOverlapping (durSec : ℕ) : List ℕ → Bool
  | [] => true
  | [_] => true
  | a :: b :: rest => decide (a + durSec ≤ b) && sessionsNonOverlapping durSec (b :: rest)

theorem sessionsNonOverlapping_chain {durSec : ℕ} :
    ∀ {l : List ℕ}, sessionsNonOverlapping durSec l = true →
      List.Chain' (fun a b => a + durSec ≤ b) l
  | [], _ => List.chain'_nil
  | [a], _ => List.chain'_singleton a
  | a :: b :: rest, h => by
    simp only [sessionsNonOverlapping, Bool.and_eq_true, decide_eq_true_eq] at h
    exact List.chain'_cons.mpr ⟨h.1, sessionsNonOverlapping_chain h.2⟩

theorem mem_foldr_sessions {ss : List TapSession} {e : ℚ}
    (he : e ∈ ss.foldr (fun s a => sessionEnergies s ++ a) []) :
    ∃ ses ∈ ss, e ∈ sessionEnergies ses := by
  induction ss with
  | nil => simp at he
  | cons s rest ih =>
    simp only [List.foldr_cons, List.mem_append] at he
    rcases he with he | he
    · exact ⟨s, by simp, he⟩
    · obtain ⟨ses, h1, h2⟩ := ih he
      exact ⟨ses, by simp [h1], h2⟩

theorem mem_allEnergies {days : List TapDay} {e : ℚ} (he : e ∈ allEnergies days) :
    ∃ day ∈ days, ∃ ses ∈ day.sessions, e ∈ sessionEnergies ses := by
  induction days with
  | nil => simp [allEnergies] at he
  | cons d rest ih =>
    simp only [allEnergies, List.foldr_cons, List.mem_append] at he
    rcases he with he | he
    · obtain ⟨ses, h1, h2⟩ := mem_foldr_sessions he
      exact ⟨d, by simp, ses, h1, h2⟩
    · obtain ⟨day, hd, hs⟩ := ih he
      exact ⟨day, by simp [hd], hs⟩

/-- C10 (amended): throughout a `TappingEngine.simulate_sessions` run in which
consecutive sessions (in sorted start order) do not overlap — each start time
is at least the previous session's end — every energy value recorded in every
session's `energy_history` satisfies `0 ≤ e ≤ max_energy_capacity`:
inter-session regeneration never lifts the gauge above capacity and tapping
never drives it below zero. -/
theorem C10_tapping_energy_bounds (cfg : TappingConfig)
    (session_times : List ℕ) (session_duration : ℕ)
    (h : sessionsNonOverlapping (session_duration * 60)
      (List.insertionSort (fun a b => a ≤ b) session_times) = true) :
    ∀ e ∈ allEnergies (simulate_sessions cfg session_times session_duration),
      0 ≤ e ∧ e ≤ (cfg.max_energy_capacity : ℚ) := by
  intro e he
  unfold simulate_sessions at he
  by_cases htap : cfg.is_tapping = true
  · rw [if_pos htap] at he
    obtain ⟨day, hday, ses, hses, hx⟩ := mem_allEnergies he
    refine sessionsFold_inv cfg
      (List.insertionSort (fun a b => a ≤ b) session_times)
      (session_duration * 60) (cfg.max_energy_capacity : ℚ) 0 []
      (by positivity) (le_refl _) (by simp)
      (sessionsNonOverlapping_chain h) (Or.inl rfl) day hday ses hses e hx
  · rw [if_neg htap] at he
    simp [allEnergies] at he

set_option maxRecDepth 100000 in
/-- C10 counterexample: as stated — for *every* input list of session start
times — the claim is false.  With capacity 5, tap speed 3, sessions starting
at 0 and 1 and a 1-minute session duration, the second session overlaps the
first, the inter-session "regeneration" `min(elapsed*0.1, cap-cur)` is applied
to a negative elapsed time, and the recorded energy drops below zero. -/
theorem C10_tapping_energy_bounds_cex :
    ¬ (∀ e ∈ allEnergies (simulate_sessions ⟨true, 5, 3, 10⟩ [0, 1] 1),
        0 ≤ e ∧ e ≤ ((⟨true, 5, 3, 10⟩ : TappingConfig).max_energy_capacity : ℚ)) := by
  with_unfolding_all decide

/-- C10 witness: the amended theorem applied to a concrete non-overlapping
schedule (sessions at 0 and 100 seconds, 1-minute duration, capacity 5). -/
theorem C10_tapping_energy_bounds_witness :
    sessionsNonOverlapping (1 * 60)
      (List.insertionSort (fun a b => a ≤ b) [0, 100]) = true ∧
    ∀ e ∈ allEnergies (simulate_sessions ⟨true, 5, 3, 10⟩ [0, 100] 1),
      0 ≤ e ∧ e ≤ ((⟨true, 5, 3, 10⟩ : TappingConfig).max_energy_capacity : ℚ) :=
  ⟨by decide, C10_tapping_energy_bounds ⟨true, 5, 3, 10⟩ [0, 100] 1 (by decide)⟩

/-! ## Progression engine (`workflow/workflow.py`) -/

/-- The `type` tag of a history action record. -/
inductive ActionType where
  | passive_income
  | tapping_income
  | location_upgrade
  | level_up
deriving DecidableEq, Repr

/-- One action record of the history (the Python code uses a dict with a
`type` key; the union of the fields of all four action shapes is modelled,
with irrelevant fields defaulted to `0`). -/
structure ActionRec where
  type : ActionType
  timestamp : ℕ
  location_id : ℕ := 0
  old_level : ℕ := 0
  new_level : ℕ := 0
  gold_before : ℚ := 0
  gold_change : ℚ := 0
  gold_after : ℚ := 0
  xp_before : ℕ := 0
  xp_change : ℕ := 0
  xp_after : ℕ := 0
  keys_before : ℕ := 0
  keys_change : ℕ := 0
  keys_after : ℕ := 0
  new_earn_per_sec : ℚ := 0
deriving DecidableEq

/-- Per-location part of a history state snapshot. -/
structure LocSnap where
  current_level : ℕ
  available : Bool
  cooldown_until : ℕ
deriving DecidableEq

/-- One history state: timestamp, deep copy of the balance, per-location
snapshot, and the actions recorded in this state before it is sealed. -/
structure StateRec where
  timestamp : ℕ
  balance : Balance
  locations : List (ℕ × LocSnap)
  actions : List ActionRec
deriving DecidableEq

/-- The `Workflow` object: mutable state (`locations`, `balance`) plus the
read-only configuration installed by the driver. -/
structure Workflow where
  locations : List (ℕ × Location)
  cooldowns : ℕ → ℕ
  user_levels : ℕ → UserLevelConfig
  maxUserLevel : ℕ
  check_schedule : List ℕ
  balance : Balance
  economy : EconomyConfig
  simulation_algorithm : SimulationAlgorithm
  tapping_config : Option TappingConfig

/-- `workflow/simulation_response.py` `SimulationResponse`. -/
structure SimulationResponse where
  simulation_id : String
  timestamp : ℕ
  history : List StateRec
  stop_reason : String
deriving DecidableEq

/-- `self.locations[i]` (dict lookup on the ordered association list). -/
def lookupLoc : List (ℕ × Location) → ℕ → Option Location
  | [], _ => none
  | p :: rest, i => if p.1 = i then some p.2 else lookupLoc rest i

/-- Point update of the location dict (in Python the `Location` object is
mutated in place). -/
def updateLoc (locs : List (ℕ × Location)) (i : ℕ) (f : Location → Location) :
    List (ℕ × Location) :=
  locs.map (fun p => if p.1 = i then (p.1, f p.2) else p)

/-- `any(location.available for location in self.locations.values())`. -/
def anyAvailable (locs : List (ℕ × Location)) : Bool :=
  locs.any (fun p => p.2.available)

/-- Python `min` over a list of naturals (`0` on the empty list, on which the
Python original raises and which the engine never reaches). -/
def listMinD : List ℕ → ℕ
  | [] => 0
  | x :: xs => xs.foldl Nat.min x

/-- Python `max` over a list of naturals. -/
def listMaxD (l : List ℕ) : ℕ := l.foldl Nat.max 0

/-- The per-location snapshot written into a history state. -/
def snapshotLocs (locs : List (ℕ × Location)) : List (ℕ × LocSnap) :=
  locs.map (fun p => (p.1, ⟨p.2.current_level, p.2.available, p.2.cooldown_until⟩))

/-- A fresh history state recorded at time `t` (deep copy of balance and
location state, empty action list). -/
def snapshot (w : Workflow) (t : ℕ) : StateRec :=
  ⟨t, w.balance, snapshotLocs w.locations, []⟩

/-- One iteration of the level-up cascade body: increment `user_level`, set
`earn_per_sec` from the new level's table entry, credit the new level's
`keys_reward`, and produce the `level_up` action record. -/
def levelUpOnce (w : Workflow) (t : ℕ) : Workflow × ActionRec :=
  let newLevel := w.balance.user_level + 1
  let newEarn := (w.user_levels newLevel).gold_per_sec
  let keysReward := (w.user_levels newLevel).keys_reward
  let b : Balance :=
    { w.balance with
      user_level := newLevel
      earn_per_sec := newEarn
      keys := w.balance.keys + keysReward }
  let act : ActionRec :=
    { type := ActionType.level_up
      timestamp := t
      old_level := newLevel - 1
      new_level := newLevel
      gold_before := w.balance.gold
      gold_change := 0
      gold_after := b.gold
      xp_before := w.balance.xp
      xp_change := 0
      xp_after := b.xp
      keys_before := w.balance.keys
      keys_change := keysReward
      keys_after := b.keys
      new_earn_per_sec := newEarn }
  ({ w with balance := b }, act)

/-- `Workflow._try_upgrade_character`: upgrade the character as many times as
the accumulated xp allows, recording one `level_up` action per level, and
stopping at the table's maximal level.  (The Python `while xp >= required_xp`
loop with its inner re-computation of `required_xp` and `break` at the
maximal level is equivalent to this combined loop guard.) -/
def try_upgrade_character (w : Workflow) (t : ℕ) (cur : StateRec) :
    Workflow × StateRec :=
  if h : w.balance.user_level < w.maxUserLevel ∧
      (w.user_levels (w.balance.user_level + 1)).xp_required ≤ w.balance.xp then
    let wa := levelUpOnce w t
    try_upgrade_character wa.1 t { cur with actions := cur.actions ++ [wa.2] }
  else (w, cur)
termination_by w.maxUserLevel - w.balance.user_level
decreasing_by
  simp only [levelUpOnce]
  omega

/-- The `location_upgrade` action record (built by `_do_actions` with the
balance and location state from just before the mutation). -/
def mkUpgradeAction (t index : ℕ) (loc : Location) (b : Balance) : ActionRec :=
  { type := ActionType.location_upgrade
    timestamp := t
    location_id := index
    new_level := loc.current_level + 1
    gold_before := b.gold
    gold_change := -(loc.get_upgrade_cost : ℚ)
    gold_after := b.gold - (loc.get_upgrade_cost : ℚ)
    xp_before := b.xp
    xp_change := loc.get_upgrade_xp_reward
    xp_after := b.xp + loc.get_upgrade_xp_reward
    keys_before := b.keys
    keys_change := loc.get_upgrade_keys_reward
    keys_after := b.keys + loc.get_upgrade_keys_reward }

/-- Commit one location upgrade at session time `t`: debit the cost, credit
the xp and (final-level) keys rewards, record the action, bump the location's
level, deactivate it at its maximal level, set its cooldown, and immediately
run the level-up cascade. -/
def commitUpgrade (w : Workflow) (t index : ℕ) (loc : Location) (cur : StateRec) :
    Workflow × StateRec :=
  let cost := loc.get_upgrade_cost
  let reward_xp := loc.get_upgrade_xp_reward
  let reward_keys := loc.get_upgrade_keys_reward
  let cooldown := w.cooldowns (loc.current_level + 1)
  let b1 : Balance :=
    { w.balance with
      gold := w.balance.gold - (cost : ℚ)
      xp := w.balance.xp + reward_xp
      keys := w.balance.keys + reward_keys }
  let act := mkUpgradeAction t index loc w.balance
  let newLoc : Location :=
    { loc with
      current_level := loc.current_level + 1
      available := if loc.numLevels ≤ loc.current_level + 1 then false else loc.available
      cooldown_until := t + cooldown }
  let w1 : Workflow :=
    { w with balance := b1, locations := updateLoc w.locations index (fun _ => newLoc) }
  try_upgrade_character w1 t { cur with actions := cur.actions ++ [act] }

/-- One pass of the candidate loop `for index, location in sorted_locations`:
skip a location when (sequential policy) a lower-id location is still
available, when the character level is too low, or when gold is short;
otherwise commit the upgrade.  `FIRST_AVAILABLE` stops after one success.
Returns the Python `any_upgrade_made` flag. -/
def upgradePass (w : Workflow) (t : ℕ) (cur : StateRec) :
    List ℕ → Workflow × StateRec × Bool
  | [] => (w, cur, false)
  | index :: rest =>
    match lookupLoc w.locations index with
    | none => upgradePass w t cur rest
    | some location =>
      if w.simulation_algorithm = SimulationAlgorithm.SEQUENTIAL ∧
          w.locations.any (fun p => decide (p.1 < index) && p.2.available) then
        upgradePass w t cur rest
      else if w.balance.user_level < location.min_character_level then
        upgradePass w t cur rest
      else if (location.get_upgrade_cost : ℚ) ≤ w.balance.gold then
        let wc := commitUpgrade w t index location cur
        match w.simulation_algorithm with
        | SimulationAlgorithm.FIRST_AVAILABLE => (wc.1, wc.2, true)
        | SimulationAlgorithm.SEQUENTIAL =>
          let rec2 := upgradePass wc.1 t wc.2 rest
          (rec2.1, rec2.2.1, true)
      else upgradePass w t cur rest

/-- The "ready set": available locations whose cooldown has expired at `t`. -/
def readyLocs (locs : List (ℕ × Location)) (t : ℕ) : List (ℕ × Location) :=
  locs.filter (fun p => p.2.available && decide (p.2.cooldown_until ≤ t))

/-- The "pending set": available locations whose cooldown expires strictly
after `t` but before `sessionEnd`. -/
def pendingCooldowns (locs : List (ℕ × Location)) (t sessionEnd : ℕ) :
    List (ℕ × Location) :=
  locs.filter (fun p =>
    p.2.available && decide (t < p.2.cooldown_until) && decide (p.2.cooldown_until < sessionEnd))

/-- The candidate order of the ready set: ascending by location id under
`SEQUENTIAL` (Python sorts the `(id, location)` pairs), dict order under
`FIRST_AVAILABLE`. -/
def orderedReadyIds (w : Workflow) (ready : List (ℕ × Location)) : List ℕ :=
  match w.simulation_algorithm with
  | SimulationAlgorithm.SEQUENTIAL =>
    List.insertionSort (fun a b => a ≤ b) (ready.map Prod.fst)
  | SimulationAlgorithm.FIRST_AVAILABLE => ready.map Prod.fst

/-- The session-burst loop (`while t < session_end`) of `_do_actions`, with
explicit fuel: try to upgrade ready locations, and when nothing is ready,
fast-forward the session-local time `t` to the next cooldown expiry within
the session or end the burst. -/
def sessionLoop (sessionEnd : ℕ) :
    ℕ → Workflow → ℕ → StateRec → Workflow × StateRec
  | 0, w, _, cur => (w, cur)
  | fuel + 1, w, t, cur =>
    if t < sessionEnd then
      let ready := readyLocs w.locations t
      if ready.isEmpty then
        let pending := pendingCooldowns w.locations t sessionEnd
        if pending.isEmpty then (w, cur)
        else
          sessionLoop sessionEnd fuel w
            (listMinD (pending.map (fun p => p.2.cooldown_until))) cur
      else
        let res := upgradePass w t cur (orderedReadyIds w ready)
        if res.2.2 then
          sessionLoop sessionEnd fuel res.1 t res.2.1
        else
          let pending := pendingCooldowns res.1.locations t sessionEnd
          if pending.isEmpty then (res.1, res.2.1)
          else
            sessionLoop sessionEnd fuel res.1
              (listMinD (pending.map (fun p => p.2.cooldown_until))) res.2.1
    else (w, cur)

/-- The `last_check` scan: walk the day's schedule in descending order and
return the first check instant of the current day strictly before `t`
(`0` when there is none). -/
def findLastCheckAux (dayStart t : ℕ) : List ℕ → ℕ
  | [] => 0
  | c :: rest => if dayStart + c < t then dayStart + c else findLastCheckAux dayStart t rest

/-- The full `last_check` computation of `_do_actions`: the last check instant
of the current day before `t`, falling back (via the `last_check == 0` test)
to `0` on the first day and to the previous day's last scheduled check
otherwise. -/
def computeLastCheck (sched : List ℕ) (t : ℕ) : ℕ :=
  let dayStart := t - t % 86400
  let lc := findLastCheckAux dayStart t ((List.insertionSort (fun a b => a ≤ b) sched).reverse)
  if lc = 0 then (if t < 86400 then 0 else (dayStart - 86400) + listMaxD sched) else lc

/-- Whether the tapping lump income is enabled
(`self.tapping_config and self.tapping_config.is_tapping`). -/
def tappingEnabled (w : Workflow) : Bool :=
  match w.tapping_config with
  | some tc => tc.is_tapping
  | none => false

/-- The first-session-of-day tapping income block of `_do_actions`:
`tapping_gold = max_energy * 0.7 * gold_per_tap`, added to gold and recorded
as a `tapping_income` action. -/
def applyTapping (w : Workflow) (t : ℕ) (cur : StateRec) : Workflow × StateRec :=
  match w.tapping_config with
  | none => (w, cur)
  | some tc =>
    if tc.is_tapping then
      let tapping_gold : ℚ := (tc.max_energy_capacity : ℚ) * (7/10 : ℚ) * tc.gold_per_tap
      let b : Balance := { w.balance with gold := w.balance.gold + tapping_gold }
      let act : ActionRec :=
        { type := ActionType.tapping_income
          timestamp := t
          gold_before := w.balance.gold
          gold_change := tapping_gold
          gold_after := b.gold
          xp_before := w.balance.xp
          xp_change := 0
          xp_after := w.balance.xp
          keys_before := w.balance.keys
          keys_change := 0
          keys_after := w.balance.keys }
      ({ w with balance := b }, { cur with actions := cur.actions ++ [act] })
    else (w, cur)

/-- The passive-income block of `_do_actions`:
`passive_income = earn_per_sec * time_passed`, added to gold and recorded as a
`passive_income` action. -/
def applyPassive (w : Workflow) (t timePassed : ℕ) (cur : StateRec) :
    Workflow × StateRec :=
  let passive_income : ℚ := w.balance.earn_per_sec * (timePassed : ℚ)
  let b : Balance := { w.balance with gold := w.balance.gold + passive_income }
  let act : ActionRec :=
    { type := ActionType.passive_income
      timestamp := t
      gold_before := w.balance.gold
      gold_change := passive_income
      gold_after := b.gold
      xp_before := w.balance.xp
      xp_change := 0
      xp_after := w.balance.xp
      keys_before := w.balance.keys
      keys_change := 0
      keys_after := w.balance.keys }
  ({ w with balance := b }, { cur with actions := cur.actions ++ [act] })

/-- `Workflow._do_actions`: at a scheduled check instant, add the tapping lump
income on the first session of the day, accrue passive income since the last
check (except on the very first login of the run), then run the session-burst
upgrade loop.  At a non-check instant, do nothing. -/
def do_actions (w : Workflow) (t : ℕ) (cur : StateRec) (innerFuel : ℕ) :
    Workflow × StateRec :=
  if (t % 86400) ∈ w.check_schedule then
    let currentDayStart := t - t % 86400
    let lastCheck := computeLastCheck w.check_schedule t
    let isFirstSessionOfDay := decide (t = listMinD w.check_schedule + currentDayStart)
    let p1 :=
      if isFirstSessionOfDay && tappingEnabled w then applyTapping w t cur else (w, cur)
    let timePassed := t - lastCheck
    let isFirstLogin := isFirstSessionOfDay && decide (t < 86400)
    let p2 :=
      if 0 < timePassed ∧ isFirstLogin = false then applyPassive p1.1 t timePassed p1.2
      else p1
    let sessionEnd := t + w.economy.game_duration
    sessionLoop sessionEnd innerFuel p2.1 t p2.2
  else (w, cur)

/-- Balance initialization at the start of `simulate`: copy the starting
balance from the economy config and derive `earn_per_sec` from the user-level
table at the current `user_level`. -/
def initWorkflow (w : Workflow) : Workflow :=
  let b0 : Balance :=
    { gold := w.economy.starting_balance.gold
      xp := w.economy.starting_balance.xp
      keys := w.economy.starting_balance.keys
      user_level := w.balance.user_level
      earn_per_sec := (w.user_levels w.balance.user_level).gold_per_sec }
  { w with balance := b0 }

/-- The outer `while any(location.available)` loop of `simulate`, with
explicit fuel (`none` = the fuel ran out while some location was still
available, i.e. the Python loop would still be running).  Check instants
seal the open history state after their actions and open a fresh snapshot. -/
def simLoop (innerFuel : ℕ) :
    ℕ → Workflow → ℕ → List StateRec → StateRec →
      Option (Workflow × ℕ × List StateRec × StateRec)
  | 0, w, t, sealed, cur =>
    if anyAvailable w.locations then none else some (w, t, sealed, cur)
  | fuel + 1, w, t, sealed, cur =>
    if anyAvailable w.locations then
      let isCheck := decide ((t % 86400) ∈ w.check_schedule)
      let res := do_actions w t cur innerFuel
      if isCheck then
        simLoop innerFuel fuel res.1 (t + 1) (sealed ++ [res.2]) (snapshot res.1 t)
      else
        simLoop innerFuel fuel res.1 (t + 1) sealed res.2
    else some (w, t, sealed, cur)

/-- The stop-reason scan over the locations in ascending id order: track the
last available location seen, and stop at the first unavailable location with
a larger id after it. -/
def findCurNext : List (ℕ × Location) → Option (ℕ × Location) →
    Option (ℕ × Location) × Option (ℕ × Location)
  | [], cur => (cur, none)
  | p :: rest, cur =>
    if p.2.available then findCurNext rest (some p)
    else
      match cur with
      | some c => if c.1 < p.1 then (some c, some p) else findCurNext rest (some c)
      | none => findCurNext rest none

/-- The stop-reason string determination at the end of `simulate`. -/
def stopReasonOf (w : Workflow) : String :=
  let max_location_id := listMaxD (w.locations.map Prod.fst)
  let scan := findCurNext (List.insertionSort (fun a b => a.1 ≤ b.1) w.locations) none
  match scan with
  | (none, _) =>
    "Location " ++ toString max_location_id ++ " - received, reached the limit of locations"
  | (some c, some n) =>
    "Location " ++ toString c.1 ++ ", Current level " ++ toString w.balance.user_level ++
      ", for opening location " ++ toString n.1 ++ " requires level " ++
      toString n.2.min_character_level ++ ". Simulation stopped"
  | (some _, none) => "Simulation stopped"

/-- `Workflow.simulate` with an explicitly supplied `simulation_id` and
explicit fuel for the two unbounded loops.  An empty location dict makes the
Python original raise (`max()` of an empty sequence), modelled as `none`. -/
def Workflow.simulate (w : Workflow) (simulation_id : String) (fuel innerFuel : ℕ) :
    Option SimulationResponse :=
  if w.locations.isEmpty then none
  else
    let w1 := initWorkflow w
    match simLoop innerFuel fuel w1 0 [] (snapshot w1 0) with
    | none => none
    | some (w2, tEnd, sealed, curF) =>
      some { simulation_id := simulation_id
             timestamp := tEnd
             history := sealed ++ [curF]
             stop_reason := stopReasonOf w2 }

/-! ## Run invariants

The Python engine records, in the action history, every mutation it makes to
the balance, and mutates a location only when committing an upgrade.  The
invariants below tie the live `Workflow` state to the recorded history; they
are established at the start of `simulate` and preserved by every step, and
the claim theorems are extracted from them. -/

/-- Replaying one recorded action on a balance (every balance mutation made
by the engine is recorded, so the live balance is the fold of the records). -/
def applyRec (b : Balance) (a : ActionRec) : Balance :=
  match a.type with
  | ActionType.level_up =>
    { gold := a.gold_after
      xp := a.xp_after
      keys := a.keys_after
      user_level := a.new_level
      earn_per_sec := a.new_earn_per_sec }
  | _ => { b with gold := a.gold_after, xp := a.xp_after, keys := a.keys_after }

/-- Replay a list of recorded actions. -/
def runBal (b : Balance) (A : List ActionRec) : Balance := A.foldl applyRec b

theorem runBal_append (b : Balance) (A B : List ActionRec) :
    runBal b (A ++ B) = runBal (runBal b A) B := by
  simp [runBal, List.foldl_append]

theorem runBal_nil (b : Balance) : runBal b [] = b := rfl

/-- Consistency of one recorded action with the balance `b` it was recorded
at, relative to the configuration `w0`. -/
def ConsAct (w0 : Workflow) (b : Balance) (a : ActionRec) : Prop :=
  a.gold_before = b.gold ∧ a.xp_before = b.xp ∧ a.keys_before = b.keys ∧
  a.gold_after = a.gold_before + a.gold_change ∧
  a.xp_after = a.xp_before + a.xp_change ∧
  a.keys_after = a.keys_before + a.keys_change ∧
  (a.type = ActionType.level_up →
    a.old_level = b.user_level ∧ a.new_level = b.user_level + 1 ∧
    a.new_level ≤ w0.maxUserLevel ∧
    a.gold_change = 0 ∧ a.xp_change = 0 ∧
    a.new_earn_per_sec = (w0.user_levels a.new_level).gold_per_sec ∧
    a.keys_change = (w0.user_levels a.new_level).keys_reward) ∧
  (a.type = ActionType.location_upgrade →
    ∃ loc0, lookupLoc w0.locations a.location_id = some loc0 ∧
      1 ≤ a.new_level ∧ a.new_level ≤ loc0.numLevels ∧
      a.gold_change = -((loc0.levels a.new_level).cost : ℚ) ∧
      a.xp_change = (loc0.levels a.new_level).xp_reward ∧
      a.keys_change = (if loc0.numLevels = a.new_level then loc0.keys else 0) ∧
      loc0.min_character_level ≤ b.user_level ∧
      0 ≤ a.gold_after) ∧
  (a.type = ActionType.passive_income →
    a.xp_change = 0 ∧ a.keys_change = 0 ∧
    ∃ k : ℕ, a.gold_change = b.earn_per_sec * (k : ℚ)) ∧
  (a.type = ActionType.tapping_income →
    a.xp_change = 0 ∧ a.keys_change = 0 ∧
    ∃ tc, w0.tapping_config = some tc ∧
      a.gold_change = (tc.max_energy_capacity : ℚ) * (7/10 : ℚ) * tc.gold_per_tap)

/-- A fact `P A₁ a` holding for every decomposition of `A` as
`A₁ ++ a :: A₂` (prefix-indexed per-element facts). -/
def PrefixFacts {α : Type} (P : List α → α → Prop) (A : List α) : Prop :=
  ∀ A₁ a A₂, A = A₁ ++ a :: A₂ → P A₁ a

theorem prefixFacts_nil {α : Type} (P : List α → α → Prop) : PrefixFacts P [] := by
  intro A₁ a A₂ h
  exact absurd h (by simp)

theorem prefixFacts_append {α : Type} {P : List α → α → Prop} {A B : List α}
    (h1 : PrefixFacts P A)
    (h2 : ∀ B₁ b B₂, B = B₁ ++ b :: B₂ → P (A ++ B₁) b) :
    PrefixFacts P (A ++ B) := by
  intro A₁ a A₂ h
  rcases List.append_eq_append_iff.mp h with ⟨as, ha1, ha2⟩ | ⟨cs, hc1, hc2⟩
  · have := h2 as a A₂ ha2
    rw [← ha1] at this
    exact this
  · cases cs with
    | nil =>
      rw [List.append_nil] at hc1
      have := h2 [] a A₂ (by simpa using hc2.symm)
      rw [List.append_nil, hc1] at this
      exact this
    | cons x xs =>
      have hx : a = x ∧ A₂ = xs ++ B := by
        simp only [List.cons_append] at hc2
        exact ⟨List.head_eq_of_cons_eq hc2, List.tail_eq_of_cons_eq hc2⟩
      exact h1 A₁ a xs (by rw [hc1, hx.1])

/-- The recorded `location_upgrade` actions of location `i`. -/
def isUpgradeOf (i : ℕ) (a : ActionRec) : Bool :=
  decide (a.type = ActionType.location_upgrade) && decide (a.location_id = i)

/-- All upgrade actions of location `i` within `A`, in history order. -/
def upgradesOf (A : List ActionRec) (i : ℕ) : List ActionRec :=
  A.filter (isUpgradeOf i)

/-- The location ids of all upgrade actions in `A`, in history order. -/
def upgradeIds (A : List ActionRec) : List ℕ :=
  (A.filter (fun a => decide (a.type = ActionType.location_upgrade))).map
    (fun a => a.location_id)

/-- All `passive_income` actions of `A` recorded at time `t`. -/
def passivesAt (A : List ActionRec) (t : ℕ) : List ActionRec :=
  A.filter (fun a =>
    decide (a.type = ActionType.passive_income) && decide (a.timestamp = t))

/-- The flattened action list of a history (the per-state action lists in
order). -/
def histActs (h : List StateRec) : List ActionRec :=
  h.foldr (fun s acc => s.actions ++ acc) []

/-- Synchronization of a live location `loc` with its configured initial
state `loc0` and its recorded upgrade actions `us`: the static fields are
unchanged, the level counts the upgrades, availability mirrors
`level < numLevels`, the recorded `new_level`s are `1, 2, …`, consecutive
upgrades respect the cooldown set by the previous one, and `cooldown_until`
is the one set by the last upgrade. -/
def LocSync (w0 : Workflow) (loc0 loc : Location) (us : List ActionRec) : Prop :=
  loc.min_character_level = loc0.min_character_level ∧
  loc.numLevels = loc0.numLevels ∧
  loc.levels = loc0.levels ∧
  loc.keys = loc0.keys ∧
  loc.current_level = us.length ∧
  us.length ≤ loc0.numLevels ∧
  (loc.available = true ↔ loc.current_level < loc.numLevels) ∧
  us.map (fun a => a.new_level) = List.range' 1 us.length ∧
  List.Chain' (fun x y => x.timestamp + w0.cooldowns x.new_level ≤ y.timestamp) us ∧
  (match us.getLast? with
   | none => loc.cooldown_until = 0
   | some x => loc.cooldown_until = x.timestamp + w0.cooldowns x.new_level)

/-- The level-up cascade postcondition (`_try_upgrade_character`'s loop exit
condition): at the maximal level, or not enough xp for the next one. -/
def CascadeDone (w0 : Workflow) (b : Balance) : Prop :=
  w0.maxUserLevel ≤ b.user_level ∨
    b.xp < (w0.user_levels (b.user_level + 1)).xp_required

/-- After every `location_upgrade` action and the `level_up` cascade block
immediately following it, the cascade postcondition holds. -/
def GroupsOk (w0 : Workflow) (A : List ActionRec) : Prop :=
  ∀ A₁ u C A₂, A = A₁ ++ u :: (C ++ A₂) →
    u.type = ActionType.location_upgrade →
    (∀ c ∈ C, c.type = ActionType.level_up) →
    (∀ x ∈ A₂.head?, x.type ≠ ActionType.level_up) →
    CascadeDone w0 (runBal w0.balance (A₁ ++ u :: C))

/-- Sequential-policy commit fact: at the moment an upgrade of location `i`
is committed, every configured location with a smaller id is fully maxed. -/
def SeqMaxed (w0 : Workflow) (A : List ActionRec) : Prop :=
  PrefixFacts (fun A₁ a =>
    a.type = ActionType.location_upgrade →
    ∀ j loc0, lookupLoc w0.locations j = some loc0 → j < a.location_id →
      (upgradesOf A₁ j).length = loc0.numLevels) A

/-- Shape of every recorded `passive_income` action: recorded at a check
instant that is not the first check-in of the run, for exactly
`earn_per_sec × (t - last check instant)` gold. -/
def PassiveShape (w0 : Workflow) (A : List ActionRec) : Prop :=
  PrefixFacts (fun A₁ a =>
    a.type = ActionType.passive_income →
    (a.timestamp % 86400) ∈ w0.check_schedule ∧
    a.timestamp ≠ listMinD w0.check_schedule ∧
    computeLastCheck w0.check_schedule a.timestamp < a.timestamp ∧
    a.gold_change = (runBal w0.balance A₁).earn_per_sec *
      ((a.timestamp - computeLastCheck w0.check_schedule a.timestamp : ℕ) : ℚ)) A

/-- Well-formedness of the configured workflow at the start of a run: the
state the driver (`Simulator.setup_workflow`) always establishes, plus the
validated-configuration assumptions the engine relies on (spec §7). -/
def WF (w0 : Workflow) : Prop :=
  w0.balance.user_level = 1 ∧ 1 ≤ w0.maxUserLevel ∧
  w0.check_schedule ≠ [] ∧ (∀ c ∈ w0.check_schedule, c < 86400) ∧
  w0.locations ≠ [] ∧ (w0.locations.map Prod.fst).Nodup ∧
  (∀ p ∈ w0.locations, p.2.current_level = 0 ∧ p.2.available = true ∧
    p.2.cooldown_until = 0 ∧ 1 ≤ p.2.numLevels)

/-- The master invariant tying the live workflow `w` to the recorded flat
action history `A`, relative to the initialized start workflow `w0`. -/
structure Inv (w0 w : Workflow) (A : List ActionRec) : Prop where
  statics : w.cooldowns = w0.cooldowns ∧ w.user_levels = w0.user_levels ∧
    w.maxUserLevel = w0.maxUserLevel ∧ w.check_schedule = w0.check_schedule ∧
    w.economy = w0.economy ∧ w.simulation_algorithm = w0.simulation_algorithm ∧
    w.tapping_config = w0.tapping_config
  ids : w.locations.map Prod.fst = w0.locations.map Prod.fst
  locs : ∀ i loc0, lookupLoc w0.locations i = some loc0 →
    ∃ loc, lookupLoc w.locations i = some loc ∧
      LocSync w0 loc0 loc (upgradesOf A i)
  bal : w.balance = runBal w0.balance A
  acts : PrefixFacts (fun A₁ a => ConsAct w0 (runBal w0.balance A₁) a) A
  ulmax : w.balance.user_level ≤ w0.maxUserLevel
  groups : GroupsOk w0 A
  passive : PassiveShape w0 A
  seqChain : w0.simulation_algorithm = SimulationAlgorithm.SEQUENTIAL →
    List.Chain' (fun x y => x ≤ y) (upgradeIds A)
  seqAvail : w0.simulation_algorithm = SimulationAlgorithm.SEQUENTIAL →
    ∀ p ∈ w.locations, p.2.available = true →
      ∀ j ∈ (upgradeIds A).getLast?, j ≤ p.1
  seqMaxed : w0.simulation_algorithm = SimulationAlgorithm.SEQUENTIAL →
    SeqMaxed w0 A

/-! ### Association-list lemmas -/

theorem updateLoc_ids (locs : List (ℕ × Location)) (i : ℕ) (f : Location → Location) :
    (updateLoc locs i f).map Prod.fst = locs.map Prod.fst := by
  induction locs with
  | nil => rfl
  | cons p rest ih =>
    by_cases hpi : p.1 = i
    · simp only [updateLoc, List.map_cons, if_pos hpi] at *
      rw [ih]
    · simp only [updateLoc, List.map_cons, if_neg hpi] at *
      rw [ih]

theorem lookupLoc_updateLoc_ne (locs : List (ℕ × Location)) (i j : ℕ)
    (f : Location → Location) (hne : j ≠ i) :
    lookupLoc (updateLoc locs i f) j = lookupLoc locs j := by
  induction locs with
  | nil => rfl
  | cons p rest ih =>
    by_cases hpi : p.1 = i
    · have hpj : ¬ p.1 = j := by omega
      simp only [updateLoc, List.map_cons, if_pos hpi, lookupLoc, hpj, if_neg,
        if_neg hpj]
      simpa [lookupLoc, updateLoc] using ih
    · simp only [updateLoc, List.map_cons, if_neg hpi, lookupLoc]
      by_cases hpj : p.1 = j
      · simp only [if_pos hpj]
      · simp only [if_neg hpj]
        simpa [lookupLoc, updateLoc] using ih

theorem lookupLoc_updateLoc_self (locs : List (ℕ × Location)) (i : ℕ)
    (f : Location → Location) :
    lookupLoc (updateLoc locs i f) i = (lookupLoc locs i).map f := by
  induction locs with
  | nil => rfl
  | cons p rest ih =>
    by_cases hpi : p.1 = i
    · simp only [updateLoc, List.map_cons, if_pos hpi, lookupLoc]
      rfl
    · simp only [updateLoc, List.map_cons, if_neg hpi, lookupLoc]
      simpa [lookupLoc, updateLoc] using ih

theorem lookupLoc_mem {locs : List (ℕ × Location)} {i : ℕ} {loc : Location}
    (h : lookupLoc locs i = some loc) : (i, loc) ∈ locs := by
  induction locs with
  | nil => simp [lookupLoc] at h
  | cons p rest ih =>
    by_cases hpi : p.1 = i
    · simp only [lookupLoc, if_pos hpi] at h
      have : p = (i, loc) := by
        cases p
        simp at hpi h
        simp [hpi, h]
      rw [← this]
      exact List.mem_cons_self p rest
    · simp only [lookupLoc, if_neg hpi] at h
      exact List.mem_cons_of_mem p (ih h)

theorem mem_lookupLoc {locs : List (ℕ × Location)} {i : ℕ} {loc : Location}
    (hnd : (locs.map Prod.fst).Nodup) (hmem : (i, loc) ∈ locs) :
    lookupLoc locs i = some loc := by
  induction locs with
  | nil => simp at hmem
  | cons p rest ih =>
    simp only [List.map_cons, List.nodup_cons] at hnd
    rcases List.mem_cons.mp hmem with heq | htail
    · rw [← heq]
      simp [lookupLoc]
    · have hpi : p.1 ≠ i := by
        intro hcontra
        exact hnd.1 (by
          rw [hcontra]
          exact List.mem_map.mpr ⟨(i, loc), htail, rfl⟩)
      simp only [lookupLoc, if_neg hpi]
      exact ih hnd.2 htail

theorem lookupLoc_isSome_of_mem_ids {locs : List (ℕ × Location)} {i : ℕ}
    (h : i ∈ locs.map Prod.fst) : ∃ loc, lookupLoc locs i = some loc := by
  induction locs with
  | nil => simp at h
  | cons p rest ih =>
    simp only [List.map_cons, List.mem_cons] at h
    by_cases hpi : p.1 = i
    · exact ⟨p.2, by simp [lookupLoc, hpi]⟩
    · rcases h with h | h
      · exact absurd h.symm hpi
      · obtain ⟨loc, hl⟩ := ih h
        exact ⟨loc, by simpa [lookupLoc, if_neg hpi] using hl⟩

theorem mem_readyLocs {locs : List (ℕ × Location)} {t : ℕ} {p : ℕ × Location} :
    p ∈ readyLocs locs t ↔
      p ∈ locs ∧ p.2.available = true ∧ p.2.cooldown_until ≤ t := by
  simp [readyLocs, List.mem_filter]

theorem anyAvailable_false {locs : List (ℕ × Location)}
    (h : anyAvailable locs = false) :
    ∀ p ∈ locs, p.2.available = false := by
  intro p hp
  unfold anyAvailable at h
  rw [List.any_eq_false] at h
  have := h p hp
  simpa using this

/-! ### The level-up cascade -/

theorem runBal_cons (b : Balance) (a : ActionRec) (A : List ActionRec) :
    runBal b (a :: A) = runBal (applyRec b a) A := rfl

theorem consFacts_cons {w0 : Workflow} {b0 : Balance} {a : ActionRec}
    {C : List ActionRec}
    (h1 : ConsAct w0 b0 a)
    (h2 : PrefixFacts (fun C₁ c => ConsAct w0 (runBal (applyRec b0 a) C₁) c) C) :
    PrefixFacts (fun C₁ c => ConsAct w0 (runBal b0 C₁) c) (a :: C) := by
  intro C₁ c C₂ h
  cases C₁ with
  | nil =>
    simp at h
    rw [h.1.symm]
    exact h1
  | cons x xs =>
    simp only [List.cons_append] at h
    have hx : a = x ∧ C = xs ++ c :: C₂ :=
      ⟨List.head_eq_of_cons_eq h, List.tail_eq_of_cons_eq h⟩
    have hthis := h2 xs c C₂ hx.2
    simp only at hthis
    rw [← hx.1, runBal_cons]
    exact hthis

/-- Everything the cascade produces: only `level_up` records, each consistent
with the running balance, the cascade postcondition at the end, and the
balance effect (gold and xp untouched, one level per record). -/
def CascadeOut (w0 w : Workflow) (C : List ActionRec) : Prop :=
  (∀ c ∈ C, c.type = ActionType.level_up) ∧
  PrefixFacts (fun C₁ c => ConsAct w0 (runBal w.balance C₁) c) C ∧
  CascadeDone w0 (runBal w.balance C) ∧
  (runBal w.balance C).gold = w.balance.gold ∧
  (runBal w.balance C).xp = w.balance.xp ∧
  (runBal w.balance C).user_level = w.balance.user_level + C.length ∧
  (w.balance.user_level ≤ w0.maxUserLevel →
    (runBal w.balance C).user_level ≤ w0.maxUserLevel)

theorem levelUpOnce_applyRec (w : Workflow) (t : ℕ) :
    applyRec w.balance (levelUpOnce w t).2 = (levelUpOnce w t).1.balance := by
  simp only [levelUpOnce, applyRec]

theorem levelUpOnce_workflow (w : Workflow) (t : ℕ) :
    (levelUpOnce w t).1 = { w with balance := (levelUpOnce w t).1.balance } := by
  simp only [levelUpOnce]

theorem try_upgrade_character_spec (w0 : Workflow) :
    ∀ (n : ℕ) (w : Workflow) (t : ℕ) (cur : StateRec),
      w.maxUserLevel - w.balance.user_level ≤ n →
      w.user_levels = w0.user_levels → w.maxUserLevel = w0.maxUserLevel →
      ∃ C : List ActionRec,
        try_upgrade_character w t cur =
          ({ w with balance := runBal w.balance C },
            { cur with actions := cur.actions ++ C }) ∧
        CascadeOut w0 w C := by
  intro n
  induction n with
  | zero =>
    intro w t cur hn hul hmax
    refine ⟨[], ?_, ?_⟩
    · rw [try_upgrade_character]
      have hguard : ¬ (w.balance.user_level < w.maxUserLevel ∧
          (w.user_levels (w.balance.user_level + 1)).xp_required ≤ w.balance.xp) := by
        intro hc
        omega
      rw [dif_neg hguard]
      simp [runBal_nil]
    · refine ⟨by simp, prefixFacts_nil _, ?_, by simp [runBal_nil], by simp [runBal_nil],
        by simp [runBal_nil], fun h => by simpa [runBal_nil] using h⟩
      unfold CascadeDone
      rw [runBal_nil]
      left
      omega
  | succ n ih =>
    intro w t cur hn hul hmax
    rw [try_upgrade_character]
    by_cases hguard : w.balance.user_level < w.maxUserLevel ∧
        (w.user_levels (w.balance.user_level + 1)).xp_required ≤ w.balance.xp
    · rw [dif_pos hguard]
      have hb1 : (levelUpOnce w t).1.balance.user_level = w.balance.user_level + 1 := by
        simp [levelUpOnce]
      have hstat : (levelUpOnce w t).1.maxUserLevel = w.maxUserLevel ∧
          (levelUpOnce w t).1.user_levels = w.user_levels := by
        simp [levelUpOnce]
      obtain ⟨C', heq, hout⟩ := ih (levelUpOnce w t).1 t
        { cur with actions := cur.actions ++ [(levelUpOnce w t).2] }
        (by rw [hstat.1, hb1]; omega) (hstat.2.trans hul) (hstat.1.trans hmax)
      refine ⟨(levelUpOnce w t).2 :: C', ?_, ?_⟩
      · rw [heq]
        have hw' : ({ (levelUpOnce w t).1 with
            balance := runBal (levelUpOnce w t).1.balance C' } : Workflow) =
            { w with balance := runBal w.balance ((levelUpOnce w t).2 :: C') } := by
          rw [runBal_cons, levelUpOnce_applyRec]
          rw [levelUpOnce_workflow w t]
        rw [hw']
        simp
      · obtain ⟨hC1, hC2, hC3, hC4, hC5, hC6, hC7⟩ := hout
        have hbase : runBal w.balance ((levelUpOnce w t).2 :: C') =
            runBal (levelUpOnce w t).1.balance C' := by
          rw [runBal_cons, levelUpOnce_applyRec]
        have hcons : ConsAct w0 w.balance (levelUpOnce w t).2 := by
          simp only [levelUpOnce]
          unfold ConsAct
          refine ⟨rfl, rfl, rfl, by simp, by simp, by simp, ?_, ?_, ?_, ?_⟩
          · intro _
            refine ⟨by simp, rfl, ?_, rfl, rfl, by rw [hul], by rw [hul]⟩
            simp only
            omega
          · intro hc
            exact ActionType.noConfusion hc
          · intro hc
            exact ActionType.noConfusion hc
          · intro hc
            exact ActionType.noConfusion hc
        refine ⟨?_, ?_, ?_, ?_, ?_, ?_, ?_⟩
        · intro c hc
          rcases List.mem_cons.mp hc with hc | hc
          · rw [hc]
            rfl
          · exact hC1 c hc
        · rw [← levelUpOnce_applyRec] at hC2
          exact consFacts_cons hcons hC2
        · rw [hbase]
          exact hC3
        · rw [hbase, hC4]
          simp [levelUpOnce]
        · rw [hbase, hC5]
          simp [levelUpOnce]
        · rw [hbase, hC6, hb1]
          simp
          omega
        · intro _
          rw [hbase]
          apply hC7
          rw [hb1]
          omega
    · rw [dif_neg hguard]
      refine ⟨[], by simp [runBal_nil], by simp, prefixFacts_nil _, ?_,
        by simp [runBal_nil], by simp [runBal_nil], by simp [runBal_nil],
        fun h => by simpa [runBal_nil] using h⟩
      unfold CascadeDone
      rw [runBal_nil]
      push_neg at hguard
      by_cases hlt : w.balance.user_level < w.maxUserLevel
      · right
        rw [← hul]
        omega
      · left
        omega

/-! ### Filter bookkeeping -/

theorem upgradesOf_append (A B : List ActionRec) (i : ℕ) :
    upgradesOf (A ++ B) i = upgradesOf A i ++ upgradesOf B i := by
  simp [upgradesOf, List.filter_append]

theorem upgradesOf_levelups {C : List ActionRec} (i : ℕ)
    (h : ∀ c ∈ C, c.type = ActionType.level_up) : upgradesOf C i = [] := by
  unfold upgradesOf
  rw [List.filter_eq_nil]
  intro c hc
  simp only [isUpgradeOf, Bool.and_eq_true, decide_eq_true_eq, not_and]
  intro hty
  rw [h c hc] at hty
  exact absurd hty (by simp)

theorem upgradesOf_upgrade_cons (a : ActionRec) (C : List ActionRec) (i : ℕ)
    (hty : a.type = ActionType.location_upgrade) :
    upgradesOf (a :: C) i =
      (if a.location_id = i then [a] else []) ++ upgradesOf C i := by
  unfold upgradesOf
  by_cases hid : a.location_id = i
  · rw [List.filter_cons_of_pos]
    · simp [hid]
    · simp [isUpgradeOf, hty, hid]
  · rw [List.filter_cons_of_neg]
    · simp [hid]
    · simp [isUpgradeOf, hty, hid]

theorem upgradeIds_append (A B : List ActionRec) :
    upgradeIds (A ++ B) = upgradeIds A ++ upgradeIds B := by
  simp [upgradeIds, List.filter_append]

theorem upgradeIds_levelups {C : List ActionRec}
    (h : ∀ c ∈ C, c.type = ActionType.level_up) : upgradeIds C = [] := by
  unfold upgradeIds
  rw [List.filter_eq_nil.mpr, List.map_nil]
  intro c hc
  simp only [decide_eq_true_eq]
  rw [h c hc]
  simp

theorem upgradeIds_upgrade_cons (a : ActionRec) (C : List ActionRec)
    (hty : a.type = ActionType.location_upgrade) :
    upgradeIds (a :: C) = a.location_id :: upgradeIds C := by
  unfold upgradeIds
  rw [List.filter_cons_of_pos]
  · simp
  · simp [hty]

theorem passivesAt_append (A B : List ActionRec) (t : ℕ) :
    passivesAt (A ++ B) t = passivesAt A t ++ passivesAt B t := by
  simp [passivesAt, List.filter_append]

theorem passivesAt_none {C : List ActionRec} (t : ℕ)
    (h : ∀ c ∈ C, ¬ (c.type = ActionType.passive_income ∧ c.timestamp = t)) :
    passivesAt C t = [] := by
  unfold passivesAt
  rw [List.filter_eq_nil]
  intro c hc
  simp only [Bool.and_eq_true, decide_eq_true_eq, not_and]
  intro h1 h2
  exact h c hc ⟨h1, h2⟩

theorem histActs_append (h1 h2 : List StateRec) :
    histActs (h1 ++ h2) = histActs h1 ++ histActs h2 := by
  induction h1 with
  | nil => simp [histActs]
  | cons s rest ih =>
    simp only [histActs, List.foldr_cons, List.cons_append] at *
    rw [ih]
    simp [List.append_assoc]

/-! ### `GroupsOk` append lemmas -/

theorem groupsOk_nil (w0 : Workflow) : GroupsOk w0 [] := by
  intro A₁ u C A₂ hdec
  exact absurd hdec (by simp)

theorem groupsOk_append_block {w0 : Workflow} {A : List ActionRec}
    {u0 : ActionRec} {C0 : List ActionRec}
    (hA : GroupsOk w0 A)
    (hu0 : u0.type = ActionType.location_upgrade)
    (hC0 : ∀ c ∈ C0, c.type = ActionType.level_up)
    (hdone : CascadeDone w0 (runBal w0.balance (A ++ u0 :: C0))) :
    GroupsOk w0 (A ++ u0 :: C0) := by
  intro A₁ u C A₂ hdec hu hC hA₂
  rcases List.append_eq_append_iff.mp hdec with ⟨as, ha1, ha2⟩ | ⟨cs, hc1, hc2⟩
  · -- A₁ = A ++ as, u0 :: C0 = as ++ u :: (C ++ A₂)
    cases as with
    | nil =>
      simp only [List.nil_append] at ha2
      have huu : u0 = u := List.head_eq_of_cons_eq ha2
      have hCC : C0 = C ++ A₂ := List.tail_eq_of_cons_eq ha2
      have hA₂nil : A₂ = [] := by
        cases A₂ with
        | nil => rfl
        | cons x xs =>
          exfalso
          have hxC0 : x ∈ C0 := by
            rw [hCC]
            simp
          have := hC0 x hxC0
          exact (hA₂ x (by simp)) this
      rw [List.append_nil] at ha1
      rw [hA₂nil, List.append_nil] at hCC
      rw [ha1, ← huu, ← hCC]
      exact hdone
    | cons x xs =>
      exfalso
      have hx : u0 = x ∧ C0 = xs ++ u :: (C ++ A₂) :=
        ⟨List.head_eq_of_cons_eq ha2, List.tail_eq_of_cons_eq ha2⟩
      have huC0 : u ∈ C0 := by
        rw [hx.2]
        simp
      rw [hC0 u huC0] at hu
      exact ActionType.noConfusion hu
  · -- A = A₁ ++ cs, u :: (C ++ A₂) = cs ++ u0 :: C0
    cases cs with
    | nil =>
      simp only [List.nil_append] at hc2
      have huu : u = u0 := List.head_eq_of_cons_eq hc2
      have hCC : C ++ A₂ = C0 := List.tail_eq_of_cons_eq hc2
      have hA₂nil : A₂ = [] := by
        cases A₂ with
        | nil => rfl
        | cons x xs =>
          exfalso
          have hxC0 : x ∈ C0 := by
            rw [← hCC]
            simp
          exact (hA₂ x (by simp)) (hC0 x hxC0)
      rw [List.append_nil] at hc1
      rw [hA₂nil, List.append_nil] at hCC
      rw [← hc1, huu, hCC]
      exact hdone
    | cons y ys =>
      have hy : u = y ∧ C ++ A₂ = ys ++ u0 :: C0 :=
        ⟨List.head_eq_of_cons_eq hc2, List.tail_eq_of_cons_eq hc2⟩
      rcases List.append_eq_append_iff.mp hy.2 with ⟨ds, hd1, hd2⟩ | ⟨es, he1, he2⟩
      · -- ys = C ++ ds, A₂ = ds ++ u0 :: C0
        have hAdec : A = A₁ ++ u :: (C ++ ds) := by
          rw [hc1, hy.1]
          simp [hd1]
        refine hA A₁ u C ds hAdec hu hC ?_
        intro z hz
        cases ds with
        | nil => simp at hz
        | cons d ds' =>
          simp at hz
          have hhead : A₂.head? = some d := by
            rw [hd2]
            rfl
          rw [← hz]
          exact hA₂ d (by rw [hhead]; simp)
      · -- C = ys ++ es, u0 :: C0 = es ++ A₂
        cases es with
        | nil =>
          simp only [List.nil_append] at he2
          have hCys : C = ys := by simpa using he1
          have hAdec : A = A₁ ++ u :: (C ++ []) := by
            rw [hc1, hy.1, hCys]
            simp
          refine hA A₁ u C [] hAdec hu hC (by simp)
        | cons e es' =>
          exfalso
          have heu : u0 = e := List.head_eq_of_cons_eq he2
          have heC : e ∈ C := by
            rw [he1]
            simp
          have hlvl := hC e heC
          rw [← heu, hu0] at hlvl
          exact ActionType.noConfusion hlvl

theorem groupsOk_append_single {w0 : Workflow} {A : List ActionRec} {b : ActionRec}
    (hA : GroupsOk w0 A)
    (hb1 : b.type ≠ ActionType.level_up)
    (hb2 : b.type ≠ ActionType.location_upgrade) :
    GroupsOk w0 (A ++ [b]) := by
  intro A₁ u C A₂ hdec hu hC hA₂
  rcases List.append_eq_append_iff.mp hdec with ⟨as, ha1, ha2⟩ | ⟨cs, hc1, hc2⟩
  · -- A₁ = A ++ as, [b] = as ++ u :: (C ++ A₂)
    exfalso
    cases as with
    | nil =>
      simp only [List.nil_append] at ha2
      exact hb2 (by rw [← List.head_eq_of_cons_eq ha2] at hu; exact hu)
    | cons x xs =>
      have : ([] : List ActionRec) = xs ++ u :: (C ++ A₂) := List.tail_eq_of_cons_eq ha2
      simp at this
  · -- A = A₁ ++ cs, u :: (C ++ A₂) = cs ++ [b]
    cases cs with
    | nil =>
      exfalso
      simp only [List.nil_append] at hc2
      exact hb2 (by rw [← List.head_eq_of_cons_eq hc2]; exact hu)
    | cons y ys =>
      have hy : u = y ∧ C ++ A₂ = ys ++ [b] :=
        ⟨List.head_eq_of_cons_eq hc2, List.tail_eq_of_cons_eq hc2⟩
      rcases List.append_eq_append_iff.mp hy.2 with ⟨ds, hd1, hd2⟩ | ⟨es, he1, he2⟩
      · -- ys = C ++ ds, A₂ = ds ++ [b]
        have hAdec : A = A₁ ++ u :: (C ++ ds) := by
          rw [hc1, hy.1]
          simp [hd1]
        refine hA A₁ u C ds hAdec hu hC ?_
        intro z hz
        cases ds with
        | nil => simp at hz
        | cons d ds' =>
          simp at hz
          have hhead : A₂.head? = some d := by
            rw [hd2]
            rfl
          rw [← hz]
          exact hA₂ d (by rw [hhead]; simp)
      · -- C = ys ++ es, [b] = es ++ A₂
        cases es with
        | nil =>
          simp only [List.nil_append] at he2
          have hCys : C = ys := by simpa using he1
          have hAdec : A = A₁ ++ u :: (C ++ []) := by
            rw [hc1, hy.1, hCys]
            simp
          exact hA A₁ u C [] hAdec hu hC (by simp)
        | cons e es' =>
          exfalso
          have : e = b ∧ es' ++ A₂ = [] := by
            constructor
            · exact (List.head_eq_of_cons_eq he2).symm
            · have := List.tail_eq_of_cons_eq he2
              simp at this
              simp [this]
          have heC : e ∈ C := by
            rw [he1]
            simp
          rw [this.1] at heC
          exact hb1 (hC b heC)

/-! ### The upgrade commit -/

theorem lookupLoc_id_mem {locs : List (ℕ × Location)} {i : ℕ} {loc : Location}
    (h : lookupLoc locs i = some loc) : i ∈ locs.map Prod.fst :=
  List.mem_map.mpr ⟨(i, loc), lookupLoc_mem h, rfl⟩

theorem Inv_lookup0 {w0 w : Workflow} {A : List ActionRec} {i : ℕ} {loc : Location}
    (hinv : Inv w0 w A) (hlk : lookupLoc w.locations i = some loc) :
    ∃ loc0, lookupLoc w0.locations i = some loc0 ∧
      LocSync w0 loc0 loc (upgradesOf A i) := by
  have hid : i ∈ w0.locations.map Prod.fst := by
    rw [← hinv.ids]
    exact lookupLoc_id_mem hlk
  obtain ⟨loc0, h0⟩ := lookupLoc_isSome_of_mem_ids hid
  obtain ⟨loc', hl', hs⟩ := hinv.locs i loc0 h0
  rw [hlk] at hl'
  injection hl' with hl'
  rw [← hl'] at hs
  exact ⟨loc0, h0, hs⟩

theorem mem_updateLoc {locs : List (ℕ × Location)} {i : ℕ} {f : Location → Location}
    {p : ℕ × Location} (h : p ∈ updateLoc locs i f) :
    ∃ q ∈ locs, p = (if q.1 = i then (q.1, f q.2) else q) := by
  unfold updateLoc at h
  obtain ⟨q, hq, hpq⟩ := List.mem_map.mp h
  exact ⟨q, hq, hpq.symm⟩

theorem mkUpgradeAction_applyRec (t index : ℕ) (loc : Location) (b : Balance) :
    applyRec b (mkUpgradeAction t index loc b) =
      { b with
        gold := b.gold - (loc.get_upgrade_cost : ℚ)
        xp := b.xp + loc.get_upgrade_xp_reward
        keys := b.keys + loc.get_upgrade_keys_reward } := by
  simp only [applyRec, mkUpgradeAction]

set_option maxHeartbeats 1000000 in
theorem commitUpgrade_spec (w0 w : Workflow) (t index : ℕ) (loc : Location)
    (cur : StateRec) (A : List ActionRec)
    (hinv : Inv w0 w A)
    (hlk : lookupLoc w.locations index = some loc)
    (havail : loc.available = true)
    (hcd : loc.cooldown_until ≤ t)
    (hlvl : loc.min_character_level ≤ w.balance.user_level)
    (hgold : (loc.get_upgrade_cost : ℚ) ≤ w.balance.gold)
    (hseq : w0.simulation_algorithm = SimulationAlgorithm.SEQUENTIAL →
      ∀ p ∈ w.locations, p.1 < index → p.2.available = false) :
    ∃ C : List ActionRec,
      (commitUpgrade w t index loc cur).2 =
        { cur with actions :=
            cur.actions ++ (mkUpgradeAction t index loc w.balance :: C) } ∧
      Inv w0 (commitUpgrade w t index loc cur).1
        (A ++ mkUpgradeAction t index loc w.balance :: C) ∧
      (∀ c ∈ C, c.type = ActionType.level_up) ∧
      (∀ j, j ≠ index →
        lookupLoc (commitUpgrade w t index loc cur).1.locations j =
          lookupLoc w.locations j) := by
  obtain ⟨loc0, h0, hsync⟩ := Inv_lookup0 hinv hlk
  obtain ⟨hs1, hs2, hs3, hs4, hs5, hs6, hs7, hs8, hs9, hs10⟩ := hsync
  obtain ⟨hw1, hw2, hw3, hw4, hw5, hw6, hw7⟩ := hinv.statics
  set us := upgradesOf A index with hus
  have hlt : us.length < loc0.numLevels := by
    rw [← hs2]
    rw [← hs5]
    exact (hs7.mp havail)
  have hclvl : loc.current_level + 1 = us.length + 1 := by rw [hs5]
  have hgetLevel : loc.getLevel (loc.current_level + 1) =
      loc0.levels (us.length + 1) := by
    unfold Location.getLevel
    rw [if_pos]
    · rw [hs3, hs5]
    · constructor
      · omega
      · rw [hs5, hs2]
        omega
  have hcost : loc.get_upgrade_cost = (loc0.levels (us.length + 1)).cost := by
    unfold Location.get_upgrade_cost
    rw [hgetLevel]
  have hxpr : loc.get_upgrade_xp_reward = (loc0.levels (us.length + 1)).xp_reward := by
    unfold Location.get_upgrade_xp_reward
    rw [hgetLevel]
  have hkeysr : loc.get_upgrade_keys_reward =
      (if loc0.numLevels = us.length + 1 then loc0.keys else 0) := by
    unfold Location.get_upgrade_keys_reward Location.is_last_upgrade
    rw [hs4, hs2, hs5]
    by_cases hl : loc0.numLevels = us.length + 1
    · simp [hl]
    · simp [hl]
  -- the recorded action and its consistency
  set act := mkUpgradeAction t index loc w.balance with hact
  have hactty : act.type = ActionType.location_upgrade := rfl
  have hactid : act.location_id = index := rfl
  have hactnl : act.new_level = us.length + 1 := by
    simp only [hact, mkUpgradeAction]
    omega
  have hcons : ConsAct w0 w.balance act := by
    refine ⟨rfl, rfl, rfl, ?_, rfl, rfl, ?_, ?_, ?_, ?_⟩
    · simp only [hact, mkUpgradeAction]
      ring
    · intro hc
      exact absurd hc (by simp [hact, mkUpgradeAction])
    · intro _
      refine ⟨loc0, h0, ?_, ?_, ?_, ?_, ?_, hs1 ▸ hlvl, ?_⟩
      · rw [hactnl]
        omega
      · rw [hactnl]
        omega
      · rw [hactnl]
        simp only [hact, mkUpgradeAction]
        rw [hcost]
      · rw [hactnl]
        simp only [hact, mkUpgradeAction]
        rw [hxpr]
      · rw [hactnl]
        simp only [hact, mkUpgradeAction]
        rw [hkeysr]
      · simp only [hact, mkUpgradeAction]
        linarith
    · intro hc
      exact absurd hc (by simp [hact, mkUpgradeAction])
    · intro hc
      exact absurd hc (by simp [hact, mkUpgradeAction])
  -- unfold the commit to the cascade call
  set b1 : Balance :=
    { w.balance with
      gold := w.balance.gold - (loc.get_upgrade_cost : ℚ)
      xp := w.balance.xp + loc.get_upgrade_xp_reward
      keys := w.balance.keys + loc.get_upgrade_keys_reward } with hb1
  set newLoc : Location :=
    { loc with
      current_level := loc.current_level + 1
      available := if loc.numLevels ≤ loc.current_level + 1 then false else loc.available
      cooldown_until := t + w.cooldowns (loc.current_level + 1) } with hnewLoc
  set w1 : Workflow :=
    { w with
      balance := b1
      locations := updateLoc w.locations index (fun _ => newLoc) } with hw1def
  have hcommit : commitUpgrade w t index loc cur =
      try_upgrade_character w1 t { cur with actions := cur.actions ++ [act] } := rfl
  have happly : applyRec w.balance act = b1 := mkUpgradeAction_applyRec t index loc w.balance
  obtain ⟨C, heq, hout⟩ := try_upgrade_character_spec w0
    (w1.maxUserLevel - w1.balance.user_level) w1 t
    { cur with actions := cur.actions ++ [act] }
    (le_refl _) hw2 hw3
  obtain ⟨hC1, hC2, hC3, hC4, hC5, hC6, hC7⟩ := hout
  have hw1bal : w1.balance = b1 := rfl
  refine ⟨C, ?_, ?_, hC1, ?_⟩
  · rw [hcommit, heq]
    simp
  · -- the re-established invariant
    rw [hcommit, heq]
    have hbalAll : runBal w0.balance (A ++ act :: C) = runBal w1.balance C := by
      rw [runBal_append, ← hinv.bal, runBal_cons, happly, hw1bal]
    have hupAll : ∀ i, upgradesOf (A ++ act :: C) i =
        upgradesOf A i ++ (if act.location_id = i then [act] else []) := by
      intro i
      rw [upgradesOf_append, upgradesOf_upgrade_cons act C i hactty,
        upgradesOf_levelups i hC1, List.append_nil]
    refine ⟨?_, ?_, ?_, ?_, ?_, ?_, ?_, ?_, ?_, ?_, ?_⟩
    · exact ⟨hw1, hw2, hw3, hw4, hw5, hw6, hw7⟩
    · simp only
      rw [updateLoc_ids]
      exact hinv.ids
    · -- per-location sync
      intro i loci0 hi0
      by_cases hii : i = index
      · subst hii
        rw [h0] at hi0
        injection hi0 with hi0
        subst hi0
        refine ⟨newLoc, ?_, ?_⟩
        · simp only
          rw [lookupLoc_updateLoc_self, hlk]
          rfl
        · rw [hupAll i, hactid, if_pos rfl, ← hus]
          refine ⟨?_, ?_, ?_, ?_, ?_, ?_, ?_, ?_, ?_, ?_⟩
          · rw [hnewLoc]
            exact hs1
          · rw [hnewLoc]
            exact hs2
          · rw [hnewLoc]
            exact hs3
          · rw [hnewLoc]
            exact hs4
          · rw [hnewLoc]
            simp only
            rw [hs5]
            simp
          · simp only [List.length_append, List.length_cons, List.length_nil]
            omega
          · rw [hnewLoc]
            dsimp only
            constructor
            · intro hav
              by_cases hmx : loc.numLevels ≤ loc.current_level + 1
              · rw [if_pos hmx] at hav
                exact absurd hav (by simp)
              · omega
            · intro hlt2
              rw [if_neg]
              · exact havail
              · omega
          · rw [List.map_append]
            rw [hs8]
            simp only [List.map_cons, List.map_nil, List.length_append,
              List.length_cons, List.length_nil]
            rw [hactnl]
            rw [List.range'_concat]
            simp
            omega
          · rw [List.chain'_append]
            refine ⟨hs9, List.chain'_singleton act, ?_⟩
            intro x hx y hy
            simp at hy
            subst hy
            have hcdx : loc.cooldown_until = x.timestamp + w0.cooldowns x.new_level := by
              revert hs10
              cases hgl : us.getLast? with
              | none => simp at hx; rw [hgl] at hx; exact absurd hx (by simp)
              | some z =>
                intro hs10
                rw [hgl] at hx
                simp at hx
                subst hx
                simpa using hs10
            have hts : act.timestamp = t := rfl
            rw [hts]
            omega
          · rw [List.getLast?_concat]
            have hts2 : act.timestamp = t := rfl
            show newLoc.cooldown_until = act.timestamp + w0.cooldowns act.new_level
            rw [hnewLoc]
            dsimp only
            rw [hts2, hactnl, hw1, hclvl]
      · obtain ⟨loci, hli, hsi⟩ := hinv.locs i loci0 hi0
        refine ⟨loci, ?_, ?_⟩
        · simp only
          rw [lookupLoc_updateLoc_ne _ _ _ _ hii]
          exact hli
        · rw [hupAll i, hactid, if_neg (by omega), List.append_nil]
          exact hsi
    · simp only
      exact hbalAll.symm
    · -- ConsAct for every element
      apply prefixFacts_append hinv.acts
      intro B₁ b B₂ hB
      cases B₁ with
      | nil =>
        simp at hB
        obtain ⟨hb1, hb2⟩ := hB
        rw [List.append_nil, ← hinv.bal]
        subst hb1
        exact hcons
      | cons x xs =>
        simp only [List.cons_append] at hB
        have hx : act = x ∧ C = xs ++ b :: B₂ :=
          ⟨List.head_eq_of_cons_eq hB, List.tail_eq_of_cons_eq hB⟩
        have := hC2 xs b B₂ hx.2
        simp only at this
        have hbase : runBal w0.balance (A ++ x :: xs) = runBal w1.balance xs := by
          rw [runBal_append, ← hinv.bal, ← hx.1, runBal_cons, happly, hw1bal]
        rw [hbase]
        exact this
    · -- user level bound
      simp only
      exact hC7 (by rw [hw1bal, hb1]; exact hinv.ulmax)
    · -- groups
      exact groupsOk_append_block hinv.groups hactty hC1 (by rw [hbalAll]; exact hC3)
    · -- passive shape
      apply prefixFacts_append hinv.passive
      intro B₁ b B₂ hB hpass
      exfalso
      have hbmem : b ∈ act :: C := by
        rw [hB]
        simp
      rcases List.mem_cons.mp hbmem with hb | hb
      · rw [hb] at hpass
        rw [hactty] at hpass
        exact ActionType.noConfusion hpass
      · have := hC1 b hb
        rw [hpass] at this
        exact ActionType.noConfusion this
    · -- sequential id chain
      intro halg
      rw [upgradeIds_append, upgradeIds_upgrade_cons act C hactty,
        upgradeIds_levelups hC1]
      rw [List.chain'_append]
      refine ⟨hinv.seqChain halg, by simp, ?_⟩
      intro x hx y hy
      simp at hy
      have hxi : x ≤ index :=
        hinv.seqAvail halg (index, loc) (lookupLoc_mem hlk) havail x hx
      omega
    · -- sequential availability bound
      intro halg p hp hpav
      rw [upgradeIds_append, upgradeIds_upgrade_cons act C hactty,
        upgradeIds_levelups hC1] at *
      intro j hj
      simp only [List.getLast?_concat] at hj
      simp at hj
      simp only at hp
      obtain ⟨q, hq, hpq⟩ := mem_updateLoc hp
      by_cases hqi : q.1 = index
      · rw [if_pos hqi] at hpq
        have hp1 : p.1 = q.1 := by rw [hpq]
        omega
      · rw [if_neg hqi] at hpq
        subst hpq
        by_cases hlt2 : p.1 < index
        · exfalso
          have := hseq halg p hq hlt2
          rw [hpav] at this
          exact Bool.noConfusion this
        · omega
    · -- sequential lower-maxed prefix fact
      intro halg
      apply prefixFacts_append (hinv.seqMaxed halg)
      intro B₁ b B₂ hB hbty j locj0 hj0 hjlt
      cases B₁ with
      | nil =>
        simp at hB
        rw [List.append_nil]
        rw [← hB.1, hactid] at hjlt
        obtain ⟨locj, hlj, hsj⟩ := hinv.locs j locj0 hj0
        have hjav : locj.available = false :=
          hseq halg (j, locj) (lookupLoc_mem hlj) hjlt
        have hlen : (upgradesOf A j).length ≤ locj0.numLevels := hsj.2.2.2.2.2.1
        have hiff := hsj.2.2.2.2.2.2.1
        have hlvlj : locj.current_level = (upgradesOf A j).length := hsj.2.2.2.2.1
        have hnlj : locj.numLevels = locj0.numLevels := hsj.2.1
        by_cases hltj : (upgradesOf A j).length < locj0.numLevels
        · exfalso
          have : locj.available = true := by
            apply hiff.mpr
            rw [hlvlj, hnlj]
            exact hltj
          rw [hjav] at this
          exact Bool.noConfusion this
        · omega
      | cons x xs =>
        exfalso
        have hx : act = x ∧ C = xs ++ b :: B₂ :=
          ⟨List.head_eq_of_cons_eq hB, List.tail_eq_of_cons_eq hB⟩
        have hbC : b ∈ C := by
          rw [hx.2]
          simp
        have := hC1 b hbC
        rw [hbty] at this
        exact ActionType.noConfusion this
  · -- other locations untouched
    intro j hj
    rw [hcommit, heq]
    simp only
    exact lookupLoc_updateLoc_ne _ _ _ _ hj

/-- Invariant preservation through one candidate pass of the upgrade loop:
legal upgrades (each with its cascade) are appended to the open state's
action list, and the master invariant carries over. -/
theorem upgradePass_spec (w0 : Workflow) :
    ∀ (cand : List ℕ) (w : Workflow) (t : ℕ) (cur : StateRec) (A : List ActionRec),
    Inv w0 w A →
    (∀ i ∈ cand, ∃ loc, lookupLoc w.locations i = some loc ∧
      loc.available = true ∧ loc.cooldown_until ≤ t) →
    cand.Nodup →
    ∃ B : List ActionRec,
      (upgradePass w t cur cand).2.1 = { cur with actions := cur.actions ++ B } ∧
      Inv w0 (upgradePass w t cur cand).1 (A ++ B) ∧
      (∀ b ∈ B, b.type = ActionType.location_upgrade ∨ b.type = ActionType.level_up) := by
  intro cand
  induction cand with
  | nil =>
    intro w t cur A hinv hpre hnd
    refine ⟨[], ?_, ?_, ?_⟩
    · simp [upgradePass]
    · simpa using hinv
    · simp
  | cons index rest ih =>
    intro w t cur A hinv hpre hnd
    obtain ⟨loc, hlk, hav, hcd⟩ := hpre index (by simp)
    have hndr : rest.Nodup := (List.nodup_cons.mp hnd).2
    have hnotmem : index ∉ rest := (List.nodup_cons.mp hnd).1
    have hprer : ∀ i ∈ rest, ∃ loc, lookupLoc w.locations i = some loc ∧
        loc.available = true ∧ loc.cooldown_until ≤ t :=
      fun i hi => hpre i (List.mem_cons_of_mem index hi)
    simp only [upgradePass, hlk]
    split
    · exact ih w t cur A hinv hprer hndr
    · next hguard =>
      split
      · exact ih w t cur A hinv hprer hndr
      · next hlvl =>
        split
        · next hgold =>
          have hseq : w0.simulation_algorithm = SimulationAlgorithm.SEQUENTIAL →
              ∀ p ∈ w.locations, p.1 < index → p.2.available = false := by
            intro halg p hp hplt
            have halg' : w.simulation_algorithm = SimulationAlgorithm.SEQUENTIAL := by
              rw [hinv.statics.2.2.2.2.2.1, halg]
            by_contra hcon
            apply hguard
            refine ⟨halg', ?_⟩
            rw [List.any_eq_true]
            refine ⟨p, hp, ?_⟩
            simp only [Bool.and_eq_true, decide_eq_true_eq]
            exact ⟨hplt, by simpa using hcon⟩
          obtain ⟨C, hcur, hinv', hC, hother⟩ :=
            commitUpgrade_spec w0 w t index loc cur A hinv hlk hav hcd
              (by omega) hgold hseq
          cases halg : w.simulation_algorithm with
          | FIRST_AVAILABLE =>
            refine ⟨mkUpgradeAction t index loc w.balance :: C, hcur, hinv', ?_⟩
            intro b hb
            rcases List.mem_cons.mp hb with hb | hb
            · subst hb
              exact Or.inl rfl
            · exact Or.inr (hC b hb)
          | SEQUENTIAL =>
            have hprer' : ∀ i ∈ rest,
                ∃ l, lookupLoc (commitUpgrade w t index loc cur).1.locations i = some l ∧
                  l.available = true ∧ l.cooldown_until ≤ t := by
              intro i hi
              obtain ⟨l, h1, h2, h3⟩ := hprer i hi
              refine ⟨l, ?_, h2, h3⟩
              rw [hother i (fun he => hnotmem (he ▸ hi))]
              exact h1
            obtain ⟨B2, hB1, hB2, hB3⟩ :=
              ih (commitUpgrade w t index loc cur).1 t
                (commitUpgrade w t index loc cur).2
                (A ++ mkUpgradeAction t index loc w.balance :: C) hinv' hprer' hndr
            refine ⟨mkUpgradeAction t index loc w.balance :: C ++ B2, ?_, ?_, ?_⟩
            · rw [hB1, hcur]
              simp
            · rw [List.append_assoc] at hB2
              exact hB2
            · intro b hb
              rcases List.mem_cons.mp hb with hb | hb
              · subst hb
                exact Or.inl rfl
              · rcases List.mem_append.mp hb with hb | hb
                · exact Or.inr (hC b hb)
                · exact hB3 b hb
        · exact ih w t cur A hinv hprer hndr

/-- The candidate id list handed to the upgrade loop has no duplicates
(the configured location ids are distinct). -/
theorem orderedReadyIds_nodup (w : Workflow) (t : ℕ)
    (hnd : (w.locations.map Prod.fst).Nodup) :
    (orderedReadyIds w (readyLocs w.locations t)).Nodup := by
  have hsub : List.Sublist ((readyLocs w.locations t).map Prod.fst)
      (w.locations.map Prod.fst) :=
    (List.filter_sublist _).map Prod.fst
  have h1 : ((readyLocs w.locations t).map Prod.fst).Nodup := hnd.sublist hsub
  unfold orderedReadyIds
  cases w.simulation_algorithm with
  | SEQUENTIAL => exact ((List.perm_insertionSort _ _).nodup_iff).mpr h1
  | FIRST_AVAILABLE => exact h1

/-- Every candidate id handed to the upgrade loop names an available location
whose cooldown has expired. -/
theorem orderedReadyIds_pre (w : Workflow) (t : ℕ)
    (hnd : (w.locations.map Prod.fst).Nodup) :
    ∀ i ∈ orderedReadyIds w (readyLocs w.locations t),
      ∃ loc, lookupLoc w.locations i = some loc ∧
        loc.available = true ∧ loc.cooldown_until ≤ t := by
  intro i hi
  unfold orderedReadyIds at hi
  have hi2 : i ∈ (readyLocs w.locations t).map Prod.fst := by
    cases halg : w.simulation_algorithm
    all_goals rw [halg] at hi
    · exact ((List.perm_insertionSort _ _).mem_iff).mp hi
    · exact hi
  obtain ⟨p, hp, hpi⟩ := List.mem_map.mp hi2
  obtain ⟨hmem, hav, hcd⟩ := mem_readyLocs.mp hp
  refine ⟨p.2, ?_, hav, hcd⟩
  rw [← hpi]
  exact mem_lookupLoc hnd hmem

/-- Invariant preservation through the session-burst loop of `_do_actions`:
only `location_upgrade` and `level_up` actions are appended, and the master
invariant carries over. -/
theorem sessionLoop_spec (w0 : Workflow) (sessionEnd : ℕ)
    (hnd0 : (w0.locations.map Prod.fst).Nodup) :
    ∀ (fuel : ℕ) (w : Workflow) (t : ℕ) (cur : StateRec) (A : List ActionRec),
    Inv w0 w A →
    ∃ B : List ActionRec,
      (sessionLoop sessionEnd fuel w t cur).2 =
        { cur with actions := cur.actions ++ B } ∧
      Inv w0 (sessionLoop sessionEnd fuel w t cur).1 (A ++ B) ∧
      (∀ b ∈ B, b.type = ActionType.location_upgrade ∨ b.type = ActionType.level_up) := by
  intro fuel
  induction fuel with
  | zero =>
    intro w t cur A hinv
    exact ⟨[], by simp [sessionLoop], by simpa [sessionLoop] using hinv, by simp⟩
  | succ fuel ih =>
    intro w t cur A hinv
    have hnd : (w.locations.map Prod.fst).Nodup := by
      rw [hinv.ids]
      exact hnd0
    simp only [sessionLoop]
    split
    · split
      · split
        · exact ⟨[], by simp, by simpa using hinv, by simp⟩
        · exact ih w _ cur A hinv
      · obtain ⟨B, hB1, hB2, hB3⟩ :=
          upgradePass_spec w0 (orderedReadyIds w (readyLocs w.locations t)) w t cur A
            hinv (orderedReadyIds_pre w t hnd) (orderedReadyIds_nodup w t hnd)
        split
        · obtain ⟨B2, hB21, hB22, hB23⟩ :=
            ih (upgradePass w t cur (orderedReadyIds w (readyLocs w.locations t))).1 t
              (upgradePass w t cur (orderedReadyIds w (readyLocs w.locations t))).2.1
              (A ++ B) hB2
          refine ⟨B ++ B2, ?_, ?_, ?_⟩
          · rw [hB21, hB1]
            simp
          · rw [← List.append_assoc]
            exact hB22
          · intro b hb
            rcases List.mem_append.mp hb with hb | hb
            · exact hB3 b hb
            · exact hB23 b hb
        · split
          · exact ⟨B, hB1, hB2, hB3⟩
          · obtain ⟨B2, hB21, hB22, hB23⟩ :=
              ih (upgradePass w t cur (orderedReadyIds w (readyLocs w.locations t))).1 _
                (upgradePass w t cur (orderedReadyIds w (readyLocs w.locations t))).2.1
                (A ++ B) hB2
            refine ⟨B ++ B2, ?_, ?_, ?_⟩
            · rw [hB21, hB1]
              simp
            · rw [← List.append_assoc]
              exact hB22
            · intro b hb
              rcases List.mem_append.mp hb with hb | hb
              · exact hB3 b hb
              · exact hB23 b hb
    · exact ⟨[], by simp, by simpa using hinv, by simp⟩

/-! ### The income blocks of `_do_actions` -/

theorem foldl_min_mem :
    ∀ (xs : List ℕ) (x : ℕ), xs.foldl Nat.min x = x ∨ xs.foldl Nat.min x ∈ xs := by
  intro xs
  induction xs with
  | nil =>
    intro x
    exact Or.inl rfl
  | cons y ys ih =>
    intro x
    rw [List.foldl_cons]
    have hmm : Nat.min x y = x ∨ Nat.min x y = y := by
      unfold Nat.min
      omega
    rcases hmm with hm | hm
    · rw [hm]
      rcases ih x with h | h
      · exact Or.inl h
      · exact Or.inr (List.mem_cons_of_mem y h)
    · rw [hm]
      rcases ih y with h | h
      · rw [h]
        exact Or.inr (by simp)
      · exact Or.inr (List.mem_cons_of_mem y h)

theorem foldl_max_mem :
    ∀ (xs : List ℕ) (x : ℕ), xs.foldl Nat.max x = x ∨ xs.foldl Nat.max x ∈ xs := by
  intro xs
  induction xs with
  | nil =>
    intro x
    exact Or.inl rfl
  | cons y ys ih =>
    intro x
    rw [List.foldl_cons]
    have hmm : Nat.max x y = x ∨ Nat.max x y = y := by
      unfold Nat.max
      omega
    rcases hmm with hm | hm
    · rw [hm]
      rcases ih x with h | h
      · exact Or.inl h
      · exact Or.inr (List.mem_cons_of_mem y h)
    · rw [hm]
      rcases ih y with h | h
      · rw [h]
        exact Or.inr (by simp)
      · exact Or.inr (List.mem_cons_of_mem y h)

theorem listMinD_mem {l : List ℕ} (h : l ≠ []) : listMinD l ∈ l := by
  cases l with
  | nil => exact absurd rfl h
  | cons x xs =>
    show xs.foldl Nat.min x ∈ x :: xs
    rcases foldl_min_mem xs x with h | h
    · rw [h]
      simp
    · exact List.mem_cons_of_mem x h

theorem listMaxD_mem {l : List ℕ} (h : l ≠ []) : listMaxD l ∈ l := by
  cases l with
  | nil => exact absurd rfl h
  | cons x xs =>
    show ((x :: xs).foldl Nat.max 0) ∈ x :: xs
    rw [List.foldl_cons]
    have h0 : Nat.max 0 x = x := by
      unfold Nat.max
      omega
    rw [h0]
    rcases foldl_max_mem xs x with h | h
    · rw [h]
      simp
    · exact List.mem_cons_of_mem x h

theorem listMaxD_le {l : List ℕ} : ∀ c ∈ l, c ≤ listMaxD l := by
  have key : ∀ (xs : List ℕ) (x : ℕ), x ≤ xs.foldl Nat.max x ∧
      ∀ c ∈ xs, c ≤ xs.foldl Nat.max x := by
    intro xs
    induction xs with
    | nil => exact fun x => ⟨Nat.le_refl x, by simp⟩
    | cons y ys ih =>
      intro x
      rw [List.foldl_cons]
      refine ⟨Nat.le_trans (Nat.le_max_left x y) (ih (Nat.max x y)).1, ?_⟩
      intro c hc
      rcases List.mem_cons.mp hc with hc | hc
      · rw [hc]
        exact Nat.le_trans (Nat.le_max_right x y) (ih (Nat.max x y)).1
      · exact (ih (Nat.max x y)).2 c hc
  exact (key l 0).2

theorem upgradesOf_single_other (b : ActionRec) (i : ℕ)
    (hb : b.type ≠ ActionType.location_upgrade) : upgradesOf [b] i = [] := by
  simp [upgradesOf, isUpgradeOf, List.filter, hb]

theorem upgradeIds_single_other (b : ActionRec)
    (hb : b.type ≠ ActionType.location_upgrade) : upgradeIds [b] = [] := by
  simp [upgradeIds, List.filter, hb]

/-- Appending one income action (tapping or passive) to the history preserves
the master invariant, provided the action is consistent with the live balance
and - for a passive action - has the recorded passive shape. -/
theorem Inv_append_income (w0 w : Workflow) (A : List ActionRec) (b : ActionRec)
    (hinv : Inv w0 w A)
    (hty : b.type = ActionType.tapping_income ∨ b.type = ActionType.passive_income)
    (hcons : ConsAct w0 w.balance b)
    (hpassb : b.type = ActionType.passive_income →
      (b.timestamp % 86400) ∈ w0.check_schedule ∧
      b.timestamp ≠ listMinD w0.check_schedule ∧
      computeLastCheck w0.check_schedule b.timestamp < b.timestamp ∧
      b.gold_change = w.balance.earn_per_sec *
        ((b.timestamp - computeLastCheck w0.check_schedule b.timestamp : ℕ) : ℚ)) :
    Inv w0 { w with balance := applyRec w.balance b } (A ++ [b]) := by
  have hnotup : b.type ≠ ActionType.location_upgrade := by
    rcases hty with h | h <;> rw [h] <;> exact fun hc => ActionType.noConfusion hc
  have hnotlu : b.type ≠ ActionType.level_up := by
    rcases hty with h | h <;> rw [h] <;> exact fun hc => ActionType.noConfusion hc
  have huser : (applyRec w.balance b).user_level = w.balance.user_level := by
    unfold applyRec
    rcases hty with h | h <;> rw [h]
  refine ⟨?_, ?_, ?_, ?_, ?_, ?_, ?_, ?_, ?_, ?_, ?_⟩
  · exact hinv.statics
  · exact hinv.ids
  · intro i loc0 h0
    obtain ⟨loc, hl, hs⟩ := hinv.locs i loc0 h0
    refine ⟨loc, hl, ?_⟩
    rw [upgradesOf_append, upgradesOf_single_other b i hnotup, List.append_nil]
    exact hs
  · show applyRec w.balance b = runBal w0.balance (A ++ [b])
    rw [runBal_append, ← hinv.bal]
    rfl
  · apply prefixFacts_append hinv.acts
    intro B₁ x B₂ hB
    cases B₁ with
    | nil =>
      simp at hB
      obtain ⟨hb1, hb2⟩ := hB
      rw [List.append_nil, ← hinv.bal]
      subst hb1
      exact hcons
    | cons y ys =>
      exfalso
      simp at hB
  · show (applyRec w.balance b).user_level ≤ w0.maxUserLevel
    rw [huser]
    exact hinv.ulmax
  · exact groupsOk_append_single hinv.groups hnotlu hnotup
  · apply prefixFacts_append hinv.passive
    intro B₁ x B₂ hB
    cases B₁ with
    | nil =>
      simp at hB
      obtain ⟨hb1, hb2⟩ := hB
      rw [List.append_nil, ← hinv.bal]
      subst hb1
      exact hpassb
    | cons y ys =>
      exfalso
      simp at hB
  · intro halg
    rw [upgradeIds_append, upgradeIds_single_other b hnotup, List.append_nil]
    exact hinv.seqChain halg
  · intro halg p hp hpav j hj
    rw [upgradeIds_append, upgradeIds_single_other b hnotup, List.append_nil] at hj
    exact hinv.seqAvail halg p hp hpav j hj
  · intro halg
    apply prefixFacts_append (hinv.seqMaxed halg)
    intro B₁ x B₂ hB
    cases B₁ with
    | nil =>
      simp at hB
      obtain ⟨hb1, hb2⟩ := hB
      subst hb1
      intro hup
      exact absurd hup hnotup
    | cons y ys =>
      exfalso
      simp at hB

/-- Invariant preservation through the first-session-of-day tapping block:
at most one `tapping_income` action is appended, and the master invariant
carries over. -/
theorem applyTapping_spec (w0 w : Workflow) (t : ℕ) (cur : StateRec)
    (A : List ActionRec) (hinv : Inv w0 w A) :
    ∃ B, (applyTapping w t cur).2 = { cur with actions := cur.actions ++ B } ∧
      Inv w0 (applyTapping w t cur).1 (A ++ B) ∧
      (∀ b ∈ B, b.type = ActionType.tapping_income) := by
  cases htc : w.tapping_config with
  | none =>
    have heq : applyTapping w t cur = (w, cur) := by
      unfold applyTapping
      rw [htc]
    rw [heq]
    exact ⟨[], by simp, by simpa using hinv, by simp⟩
  | some tc =>
    by_cases his : tc.is_tapping = true
    · have heq : applyTapping w t cur =
          ({ w with balance :=
              { w.balance with gold := w.balance.gold +
                  (tc.max_energy_capacity : ℚ) * (7/10 : ℚ) * tc.gold_per_tap } },
           { cur with actions := cur.actions ++
              [{ type := ActionType.tapping_income
                 timestamp := t
                 gold_before := w.balance.gold
                 gold_change := (tc.max_energy_capacity : ℚ) * (7/10 : ℚ) * tc.gold_per_tap
                 gold_after := w.balance.gold +
                   (tc.max_energy_capacity : ℚ) * (7/10 : ℚ) * tc.gold_per_tap
                 xp_before := w.balance.xp
                 xp_change := 0
                 xp_after := w.balance.xp
                 keys_before := w.balance.keys
                 keys_change := 0
                 keys_after := w.balance.keys }] }) := by
        unfold applyTapping
        rw [htc]
        dsimp only
        rw [if_pos his]
      rw [heq]
      refine ⟨_, rfl, ?_, ?_⟩
      · have hcons : ConsAct w0 w.balance
            { type := ActionType.tapping_income
              timestamp := t
              gold_before := w.balance.gold
              gold_change := (tc.max_energy_capacity : ℚ) * (7/10 : ℚ) * tc.gold_per_tap
              gold_after := w.balance.gold +
                (tc.max_energy_capacity : ℚ) * (7/10 : ℚ) * tc.gold_per_tap
              xp_before := w.balance.xp
              xp_change := 0
              xp_after := w.balance.xp
              keys_before := w.balance.keys
              keys_change := 0
              keys_after := w.balance.keys } := by
          refine ⟨rfl, rfl, rfl, rfl, by simp, by simp, ?_, ?_, ?_, ?_⟩
          · intro h
            exact ActionType.noConfusion h
          · intro h
            exact ActionType.noConfusion h
          · intro h
            exact ActionType.noConfusion h
          · intro _
            refine ⟨rfl, rfl, tc, ?_, rfl⟩
            rw [← hinv.statics.2.2.2.2.2.2]
            exact htc
        have := Inv_append_income w0 w A _ hinv (Or.inl rfl) hcons
          (fun h => ActionType.noConfusion h)
        exact this
      · intro b hb
        simp at hb
        rw [hb]
    · have heq : applyTapping w t cur = (w, cur) := by
        unfold applyTapping
        rw [htc]
        dsimp only
        rw [if_neg his]
      rw [heq]
      exact ⟨[], by simp, by simpa using hinv, by simp⟩

/-- Invariant preservation through the passive-income block: one
`passive_income` action is appended, and the master invariant carries over,
given the check-instant facts the `_do_actions` guards establish. -/
theorem applyPassive_spec (w0 w : Workflow) (t timePassed : ℕ) (cur : StateRec)
    (A : List ActionRec) (hinv : Inv w0 w A)
    (h1 : (t % 86400) ∈ w0.check_schedule)
    (h2 : t ≠ listMinD w0.check_schedule)
    (h3 : computeLastCheck w0.check_schedule t < t)
    (h4 : timePassed = t - computeLastCheck w0.check_schedule t) :
    ∃ B, (applyPassive w t timePassed cur).2 =
        { cur with actions := cur.actions ++ B } ∧
      Inv w0 (applyPassive w t timePassed cur).1 (A ++ B) ∧
      (∀ b ∈ B, b.type = ActionType.passive_income ∧ b.timestamp = t) ∧
      B.length = 1 := by
  refine ⟨[{ type := ActionType.passive_income
             timestamp := t
             gold_before := w.balance.gold
             gold_change := w.balance.earn_per_sec * (timePassed : ℚ)
             gold_after := w.balance.gold + w.balance.earn_per_sec * (timePassed : ℚ)
             xp_before := w.balance.xp
             xp_change := 0
             xp_after := w.balance.xp
             keys_before := w.balance.keys
             keys_change := 0
             keys_after := w.balance.keys }], rfl, ?_, ?_⟩
  · have hcons : ConsAct w0 w.balance
        { type := ActionType.passive_income
          timestamp := t
          gold_before := w.balance.gold
          gold_change := w.balance.earn_per_sec * (timePassed : ℚ)
          gold_after := w.balance.gold + w.balance.earn_per_sec * (timePassed : ℚ)
          xp_before := w.balance.xp
          xp_change := 0
          xp_after := w.balance.xp
          keys_before := w.balance.keys
          keys_change := 0
          keys_after := w.balance.keys } := by
      refine ⟨rfl, rfl, rfl, rfl, by simp, by simp, ?_, ?_, ?_, ?_⟩
      · intro h
        exact ActionType.noConfusion h
      · intro h
        exact ActionType.noConfusion h
      · intro _
        exact ⟨rfl, rfl, timePassed, rfl⟩
      · intro h
        exact ActionType.noConfusion h
    have := Inv_append_income w0 w A _ hinv (Or.inr rfl) hcons ?side
    · exact this
    case side =>
      intro _
      refine ⟨h1, h2, h3, ?_⟩
      rw [h4]
  · refine ⟨?_, rfl⟩
    intro b hb
    simp at hb
    rw [hb]
    exact ⟨rfl, rfl⟩

/-! ### The `last_check` computation -/

theorem listMinD_le {l : List ℕ} : ∀ c ∈ l, listMinD l ≤ c := by
  have key : ∀ (xs : List ℕ) (x : ℕ), xs.foldl Nat.min x ≤ x ∧
      ∀ c ∈ xs, xs.foldl Nat.min x ≤ c := by
    intro xs
    induction xs with
    | nil => exact fun x => ⟨Nat.le_refl x, by simp⟩
    | cons y ys ih =>
      intro x
      rw [List.foldl_cons]
      have hxy : Nat.min x y ≤ x ∧ Nat.min x y ≤ y := by
        unfold Nat.min
        omega
      refine ⟨Nat.le_trans (ih (Nat.min x y)).1 hxy.1, ?_⟩
      intro c hc
      rcases List.mem_cons.mp hc with hc | hc
      · rw [hc]
        exact Nat.le_trans (ih (Nat.min x y)).1 hxy.2
      · exact (ih (Nat.min x y)).2 c hc
  intro c hc
  cases l with
  | nil => simp at hc
  | cons x xs =>
    show xs.foldl Nat.min x ≤ c
    rcases List.mem_cons.mp hc with hc | hc
    · rw [hc]
      exact (key xs x).1
    · exact (key xs x).2 c hc

/-- Behaviour of the descending `last_check` scan on a descending candidate
list: it returns `0` when no candidate instant lies before `t`, and otherwise
the largest candidate instant before `t`. -/
theorem findLastCheckAux_spec (d t : ℕ) :
    ∀ L : List ℕ, List.Pairwise (fun a b => b ≤ a) L →
    (findLastCheckAux d t L = 0 ∧ ∀ c ∈ L, ¬(d + c < t)) ∨
    (∃ c ∈ L, findLastCheckAux d t L = d + c ∧ d + c < t ∧
      ∀ c' ∈ L, d + c' < t → c' ≤ c) := by
  intro L
  induction L with
  | nil =>
    intro _
    exact Or.inl ⟨rfl, by simp⟩
  | cons c rest ih =>
    intro hpw
    rw [List.pairwise_cons] at hpw
    by_cases hc : d + c < t
    · right
      refine ⟨c, by simp, ?_, hc, ?_⟩
      · unfold findLastCheckAux
        rw [if_pos hc]
      · intro c' hc' _
        rcases List.mem_cons.mp hc' with h | h
        · omega
        · exact hpw.1 c' h
    · rcases ih hpw.2 with ⟨h0, hall⟩ | ⟨c', hc', heq, hltc, hmax⟩
      · left
        refine ⟨?_, ?_⟩
        · unfold findLastCheckAux
          rw [if_neg hc]
          exact h0
        · intro c'' hcc
          rcases List.mem_cons.mp hcc with h | h
          · omega
          · exact hall c'' h
      · right
        refine ⟨c', List.mem_cons_of_mem c hc', ?_, hltc, ?_⟩
        · unfold findLastCheckAux
          rw [if_neg hc]
          exact heq
        · intro c'' hcc hltcc
          rcases List.mem_cons.mp hcc with h | h
          · exfalso
            rw [h] at hltcc
            exact hc hltcc
          · exact hmax c'' h hltcc

theorem revSorted_pairwise (sched : List ℕ) :
    List.Pairwise (fun a b => b ≤ a)
      ((List.insertionSort (fun a b => a ≤ b) sched).reverse) := by
  have hs : List.Sorted (fun a b => a ≤ b)
      (List.insertionSort (fun a b => a ≤ b) sched) :=
    List.sorted_insertionSort _ _
  rw [List.pairwise_reverse]
  exact hs

theorem mem_revSort {sched : List ℕ} {c : ℕ} :
    c ∈ (List.insertionSort (fun a b => a ≤ b) sched).reverse ↔ c ∈ sched := by
  rw [List.mem_reverse]
  exact (List.perm_insertionSort _ _).mem_iff

/-- A check instant: a second whose time of day is in the schedule
(spec wording). -/
def IsCheckInstant (sched : List ℕ) (s : ℕ) : Prop := (s % 86400) ∈ sched

/-- `s` is the previous check-in instant before `t`: the largest check
instant strictly before `t` (spec wording). -/
def IsPrevCheck (sched : List ℕ) (t s : ℕ) : Prop :=
  IsCheckInstant sched s ∧ s < t ∧
    ∀ s', IsCheckInstant sched s' → s' < t → s' ≤ s

/-- The engine's `last_check` computation returns exactly the previous
check-in instant, at every check instant other than the very first check-in
of the run. -/
theorem computeLastCheck_isPrevCheck (sched : List ℕ)
    (hne : sched ≠ []) (hsch : ∀ c ∈ sched, c < 86400) (t : ℕ)
    (hck : (t % 86400) ∈ sched)
    (hnf : ¬(t < 86400 ∧ t = listMinD sched)) :
    IsPrevCheck sched t (computeLastCheck sched t) := by
  have hdm := Nat.div_add_mod t 86400
  set d := t - t % 86400 with hd
  have hdd : d = 86400 * (t / 86400) := by omega
  have hspec := findLastCheckAux_spec d t
    ((List.insertionSort (fun a b => a ≤ b) sched).reverse) (revSorted_pairwise sched)
  have hcl : computeLastCheck sched t =
      (if findLastCheckAux d t ((List.insertionSort (fun a b => a ≤ b) sched).reverse) = 0
       then (if t < 86400 then 0 else (d - 86400) + listMaxD sched)
       else findLastCheckAux d t ((List.insertionSort (fun a b => a ≤ b) sched).reverse)) := by
    unfold computeLastCheck
    rfl
  by_cases hlc : findLastCheckAux d t
      ((List.insertionSort (fun a b => a ≤ b) sched).reverse) = 0
  · rw [hlc, if_pos rfl] at hcl
    by_cases ht : t < 86400
    · -- day 0: the fallback value 0 is itself the largest earlier check
      rw [if_pos ht] at hcl
      have htt : t % 86400 = t := by omega
      have htm : t ∈ sched := by
        rw [← htt]
        exact hck
      have hmlt : listMinD sched < t := by
        have h1 := listMinD_le t htm
        have h2 : t ≠ listMinD sched := fun h => hnf ⟨ht, h⟩
        omega
      have hd0 : d = 0 := by omega
      rcases hspec with ⟨_, hall⟩ | ⟨c, hcm, heq, hlt2, hmax⟩
      · exfalso
        have := hall (listMinD sched) (mem_revSort.mpr (listMinD_mem hne))
        omega
      · have hc0 : c = 0 := by omega
        rw [hcl]
        refine ⟨?_, ?_, ?_⟩
        · show (0 % 86400) ∈ sched
          have : (0 : ℕ) % 86400 = 0 := by omega
          rw [this, ← hc0]
          exact mem_revSort.mp hcm
        · omega
        · intro s' hs' hslt
          have hs'small : s' % 86400 = s' := by omega
          have hs'm : s' ∈ sched := by
            rw [← hs'small]
            exact hs'
          have := hmax s' (mem_revSort.mpr hs'm) (by omega)
          omega
    · -- later day: fall back to the previous day's last scheduled check
      rw [if_neg ht] at hcl
      have hdge : 86400 ≤ d := by omega
      have hM : listMaxD sched ∈ sched := listMaxD_mem hne
      have hMlt : listMaxD sched < 86400 := hsch _ hM
      rcases hspec with ⟨_, hall⟩ | ⟨c, hcm, heq, hlt2, hmax⟩
      · rw [hcl]
        refine ⟨?_, ?_, ?_⟩
        · show ((d - 86400 + listMaxD sched) % 86400) ∈ sched
          have : (d - 86400 + listMaxD sched) % 86400 = listMaxD sched := by omega
          rw [this]
          exact hM
        · omega
        · intro s' hs' hslt
          by_cases hds : d ≤ s'
          · exfalso
            have hc' : s' % 86400 = s' - d := by omega
            have hsm : (s' - d) ∈ sched := by
              rw [← hc']
              exact hs'
            have := hall (s' - d) (mem_revSort.mpr hsm)
            omega
          · have hc'le : s' % 86400 ≤ listMaxD sched := by
              apply listMaxD_le
              exact hs'
            omega
      · exfalso
        have hcs : c ∈ sched := mem_revSort.mp hcm
        have := hsch c hcs
        omega
  · rw [if_neg hlc] at hcl
    rcases hspec with ⟨h0, _⟩ | ⟨c, hcm, heq, hlt2, hmax⟩
    · exact absurd h0 hlc
    · rw [hcl, heq]
      have hcs : c ∈ sched := mem_revSort.mp hcm
      have hclt : c < 86400 := hsch c hcs
      refine ⟨?_, hlt2, ?_⟩
      · show ((d + c) % 86400) ∈ sched
        have : (d + c) % 86400 = c := by omega
        rw [this]
        exact hcs
      · intro s' hs' hslt
        by_cases hds : d ≤ s'
        · have hc' : s' % 86400 = s' - d := by omega
          have hsm : (s' - d) ∈ sched := by
            rw [← hc']
            exact hs'
          have := hmax (s' - d) (mem_revSort.mpr hsm) (by omega)
          omega
        · omega

/-- The `is_first_login` test of `_do_actions` fires exactly at the very
first check-in of the run. -/
theorem firstLogin_iff (sched : List ℕ) (t : ℕ) :
    ((decide (t = listMinD sched + (t - t % 86400)) && decide (t < 86400)) = true) ↔
      (t < 86400 ∧ t = listMinD sched) := by
  simp only [Bool.and_eq_true, decide_eq_true_eq]
  constructor
  · rintro ⟨h1, h2⟩
    have : t % 86400 = t := by omega
    refine ⟨h2, by omega⟩
  · rintro ⟨h1, h2⟩
    have : t % 86400 = t := by omega
    exact ⟨by omega, h1⟩

/-- Invariant preservation through one `_do_actions` call, together with the
passive-income bookkeeping: the appended passives all carry timestamp `t`,
and exactly one passive is appended iff `t` is a check instant other than the
run's first check-in. -/
theorem do_actions_spec (w0 : Workflow)
    (hnd0 : (w0.locations.map Prod.fst).Nodup)
    (hne : w0.check_schedule ≠ [])
    (hsch : ∀ c ∈ w0.check_schedule, c < 86400)
    (w : Workflow) (t : ℕ) (cur : StateRec) (innerFuel : ℕ) (A : List ActionRec)
    (hinv : Inv w0 w A) :
    ∃ B, (do_actions w t cur innerFuel).2 = { cur with actions := cur.actions ++ B } ∧
      Inv w0 (do_actions w t cur innerFuel).1 (A ++ B) ∧
      (∀ b ∈ B, b.type = ActionType.passive_income → b.timestamp = t) ∧
      ((t % 86400) ∈ w0.check_schedule → ¬(t < 86400 ∧ t = listMinD w0.check_schedule) →
        (B.filter (fun x => decide (x.type = ActionType.passive_income))).length = 1) ∧
      ((t % 86400) ∉ w0.check_schedule ∨ (t < 86400 ∧ t = listMinD w0.check_schedule) →
        B.filter (fun x => decide (x.type = ActionType.passive_income)) = []) := by
  have hcs : w.check_schedule = w0.check_schedule := hinv.statics.2.2.2.1
  unfold do_actions
  by_cases hck : (t % 86400) ∈ w.check_schedule
  · rw [if_pos hck]
    dsimp only
    have hck0 : (t % 86400) ∈ w0.check_schedule := by
      rw [← hcs]
      exact hck
    obtain ⟨B1, h11, h12, h13⟩ :
        ∃ B1,
          (if (decide (t = listMinD w.check_schedule + (t - t % 86400)) &&
                tappingEnabled w) = true
           then applyTapping w t cur else (w, cur)).2 =
            { cur with actions := cur.actions ++ B1 } ∧
          Inv w0
            (if (decide (t = listMinD w.check_schedule + (t - t % 86400)) &&
                  tappingEnabled w) = true
             then applyTapping w t cur else (w, cur)).1 (A ++ B1) ∧
          (∀ b ∈ B1, b.type = ActionType.tapping_income) := by
      split
      · exact applyTapping_spec w0 w t cur A hinv
      · exact ⟨[], by simp, by simpa using hinv, by simp⟩
    set p1 := (if (decide (t = listMinD w.check_schedule + (t - t % 86400)) &&
          tappingEnabled w) = true
       then applyTapping w t cur else (w, cur)) with hp1
    obtain ⟨B2, h21, h22, h23, h24, h25⟩ :
        ∃ B2,
          (if 0 < t - computeLastCheck w.check_schedule t ∧
              (decide (t = listMinD w.check_schedule + (t - t % 86400)) &&
                decide (t < 86400)) = false
           then applyPassive p1.1 t (t - computeLastCheck w.check_schedule t) p1.2
           else p1).2 = { p1.2 with actions := p1.2.actions ++ B2 } ∧
          Inv w0
            (if 0 < t - computeLastCheck w.check_schedule t ∧
                (decide (t = listMinD w.check_schedule + (t - t % 86400)) &&
                  decide (t < 86400)) = false
             then applyPassive p1.1 t (t - computeLastCheck w.check_schedule t) p1.2
             else p1).1 ((A ++ B1) ++ B2) ∧
          (∀ b ∈ B2, b.type = ActionType.passive_income ∧ b.timestamp = t) ∧
          ((0 < t - computeLastCheck w.check_schedule t ∧
              (decide (t = listMinD w.check_schedule + (t - t % 86400)) &&
                decide (t < 86400)) = false) → B2.length = 1) ∧
          (¬(0 < t - computeLastCheck w.check_schedule t ∧
              (decide (t = listMinD w.check_schedule + (t - t % 86400)) &&
                decide (t < 86400)) = false) → B2 = []) := by
      by_cases hg : 0 < t - computeLastCheck w.check_schedule t ∧
          (decide (t = listMinD w.check_schedule + (t - t % 86400)) &&
            decide (t < 86400)) = false
      · rw [if_pos hg]
        have h2ne : t ≠ listMinD w0.check_schedule := by
          intro heq
          have hmm : listMinD w0.check_schedule ∈ w0.check_schedule := listMinD_mem hne
          have hmlt : listMinD w0.check_schedule < 86400 := hsch _ hmm
          have htrue : (decide (t = listMinD w.check_schedule + (t - t % 86400)) &&
              decide (t < 86400)) = true := by
            apply (firstLogin_iff w.check_schedule t).mpr
            rw [hcs]
            exact ⟨by omega, heq⟩
          rw [htrue] at hg
          exact Bool.noConfusion hg.2
        have h3lt : computeLastCheck w0.check_schedule t < t := by
          have := hg.1
          rw [hcs] at this
          omega
        obtain ⟨B2, a1, a2, a3, a4⟩ :=
          applyPassive_spec w0 p1.1 t (t - computeLastCheck w.check_schedule t) p1.2
            (A ++ B1) h12 hck0 h2ne h3lt (by rw [hcs])
        exact ⟨B2, a1, a2, a3, fun _ => a4, fun h => absurd hg h⟩
      · rw [if_neg hg]
        exact ⟨[], by simp, by simpa using h12, by simp, fun h => absurd h hg,
          fun _ => rfl⟩
    set p2 := (if 0 < t - computeLastCheck w.check_schedule t ∧
          (decide (t = listMinD w.check_schedule + (t - t % 86400)) &&
            decide (t < 86400)) = false
       then applyPassive p1.1 t (t - computeLastCheck w.check_schedule t) p1.2
       else p1) with hp2
    obtain ⟨B3, h31, h32, h33⟩ :=
      sessionLoop_spec w0 (t + w.economy.game_duration) hnd0 innerFuel p2.1 t p2.2
        ((A ++ B1) ++ B2) h22
    have hf1 : B1.filter (fun x => decide (x.type = ActionType.passive_income)) = [] := by
      rw [List.filter_eq_nil_iff]
      intro b hb
      simp [h13 b hb]
    have hf2 : B2.filter (fun x => decide (x.type = ActionType.passive_income)) = B2 := by
      rw [List.filter_eq_self]
      intro b hb
      simp [(h23 b hb).1]
    have hf3 : B3.filter (fun x => decide (x.type = ActionType.passive_income)) = [] := by
      rw [List.filter_eq_nil_iff]
      intro b hb
      rcases h33 b hb with h | h <;> simp [h]
    refine ⟨B1 ++ (B2 ++ B3), ?_, ?_, ?_, ?_, ?_⟩
    · rw [h31, h21, h11]
      simp
    · rw [List.append_assoc, List.append_assoc] at h32
      exact h32
    · intro b hb hbp
      rcases List.mem_append.mp hb with hb | hb
      · rw [h13 b hb] at hbp
        exact ActionType.noConfusion hbp
      · rcases List.mem_append.mp hb with hb | hb
        · exact (h23 b hb).2
        · rcases h33 b hb with h | h <;> rw [h] at hbp <;>
            exact ActionType.noConfusion hbp
    · intro hm hnf
      have hpc := computeLastCheck_isPrevCheck w0.check_schedule hne hsch t hm hnf
      have hflF : (decide (t = listMinD w.check_schedule + (t - t % 86400)) &&
          decide (t < 86400)) = false := by
        rcases Bool.eq_false_or_eq_true (decide (t = listMinD w.check_schedule +
            (t - t % 86400)) && decide (t < 86400)) with h | h
        · exfalso
          have := (firstLogin_iff w.check_schedule t).mp h
          rw [hcs] at this
          exact hnf this
        · exact h
      have hguard : 0 < t - computeLastCheck w.check_schedule t ∧
          (decide (t = listMinD w.check_schedule + (t - t % 86400)) &&
            decide (t < 86400)) = false := by
        refine ⟨?_, hflF⟩
        rw [hcs]
        have := hpc.2.1
        omega
      have hlen := h24 hguard
      rw [List.filter_append, List.filter_append, hf1, hf2, hf3]
      simp [hlen]
    · intro hor
      rcases hor with hnm | hfirst
      · exact absurd hck0 hnm
      · have hB2 : B2 = [] := by
          apply h25
          rintro ⟨_, hfl⟩
          have htrue : (decide (t = listMinD w.check_schedule + (t - t % 86400)) &&
              decide (t < 86400)) = true := by
            apply (firstLogin_iff w.check_schedule t).mpr
            rw [hcs]
            exact hfirst
          rw [htrue] at hfl
          exact Bool.noConfusion hfl
        rw [List.filter_append, List.filter_append, hf1, hf2, hf3, hB2]
        simp
  · rw [if_neg hck]
    refine ⟨[], by simp, by simpa using hinv, by simp, ?_, by simp⟩
    intro hm _
    rw [← hcs] at hm
    exact absurd hm hck

/-! ### The outer simulation loop -/

theorem histActs_single (s : StateRec) : histActs [s] = s.actions := by
  simp [histActs]

/-- One step of the recorded history: each new state's balance snapshot is
the previous snapshot with the previous state's actions replayed. -/
def StateStep (s s' : StateRec) : Prop :=
  s'.balance = runBal s.balance s.actions

theorem passivesAt_ne_nil {B : List ActionRec} {t u : ℕ}
    (h : ∀ b ∈ B, b.type = ActionType.passive_income → b.timestamp = t)
    (hne : u ≠ t) : passivesAt B u = [] := by
  rw [passivesAt, List.filter_eq_nil_iff]
  intro b hb
  simp only [Bool.and_eq_true, decide_eq_true_eq, not_and]
  intro hty
  rw [h b hb hty]
  exact fun he => hne he.symm

theorem passivesAt_self_filter {B : List ActionRec} {t : ℕ}
    (h : ∀ b ∈ B, b.type = ActionType.passive_income → b.timestamp = t) :
    passivesAt B t = B.filter (fun x => decide (x.type = ActionType.passive_income)) := by
  rw [passivesAt]
  apply List.filter_congr
  intro b hb
  by_cases hty : b.type = ActionType.passive_income
  · simp [hty, h b hb hty]
  · simp [hty]

theorem passivesAt_lt_nil {A : List ActionRec} {t : ℕ}
    (h : ∀ a ∈ A, a.type = ActionType.passive_income → a.timestamp < t) :
    passivesAt A t = [] := by
  rw [passivesAt, List.filter_eq_nil_iff]
  intro a ha
  simp only [Bool.and_eq_true, decide_eq_true_eq, not_and]
  intro hty heq
  have := h a ha hty
  omega

/-- The invariant of the outer `while any(location.available)` loop, tying
the live workflow, the clock, the sealed history and the open history state
together. -/
structure LoopInv (w0 w : Workflow) (t : ℕ) (sealed : List StateRec)
    (cur : StateRec) : Prop where
  inv : Inv w0 w (histActs (sealed ++ [cur]))
  chain : List.Chain' StateStep (sealed ++ [cur])
  headBal : ∀ s ∈ (sealed ++ [cur]).head?, s.balance = w0.balance
  curBal : cur.balance = runBal w0.balance (histActs sealed)
  snapLocs : cur.locations = snapshotLocs w.locations
  pf3 : ∀ a ∈ histActs (sealed ++ [cur]),
    a.type = ActionType.passive_income → a.timestamp < t
  pf4 : ∀ u < t, (u % 86400) ∈ w0.check_schedule →
    ¬(u < 86400 ∧ u = listMinD w0.check_schedule) →
    (passivesAt (histActs (sealed ++ [cur])) u).length = 1

/-- The master invariant holds for the freshly initialized run state. -/
theorem Inv_init (w0 : Workflow) (hwf : WF w0) : Inv w0 w0 [] := by
  obtain ⟨hul, hmax, hsne, hslt, hlne, hnd, hloc⟩ := hwf
  refine ⟨⟨rfl, rfl, rfl, rfl, rfl, rfl, rfl⟩, rfl, ?_, rfl, prefixFacts_nil _, ?_,
    groupsOk_nil w0, prefixFacts_nil _, ?_, ?_, ?_⟩
  · intro i loc0 h0
    refine ⟨loc0, h0, ?_⟩
    obtain ⟨hcl, hav, hcd, hnl⟩ := hloc (i, loc0) (lookupLoc_mem h0)
    dsimp only at hcl hav hcd hnl
    refine ⟨rfl, rfl, rfl, rfl, ?_, ?_, ?_, ?_, ?_, ?_⟩
    · simpa [upgradesOf] using hcl
    · simp [upgradesOf]
    · rw [hav]
      simp only [upgradesOf, List.filter_nil]
      constructor
      · intro _
        omega
      · intro _
        trivial
    · simp [upgradesOf]
    · simp [upgradesOf]
    · simpa [upgradesOf] using hcd
  · rw [hul]
    exact hmax
  · intro _
    simp [upgradeIds]
  · intro _ p hp hpav j hj
    simp [upgradeIds] at hj
  · intro _
    exact prefixFacts_nil _

/-- Invariant preservation through the outer loop: whenever the loop
returns, the loop invariant holds of the returned state, every location is
unavailable, and the clock moved forward. -/
theorem simLoop_spec (w0 : Workflow) (innerFuel : ℕ)
    (hnd0 : (w0.locations.map Prod.fst).Nodup)
    (hne : w0.check_schedule ≠ [])
    (hsch : ∀ c ∈ w0.check_schedule, c < 86400) :
    ∀ (fuel : ℕ) (w : Workflow) (t : ℕ) (sealed : List StateRec) (cur : StateRec),
    LoopInv w0 w t sealed cur →
    ∀ res, simLoop innerFuel fuel w t sealed cur = some res →
      LoopInv w0 res.1 res.2.1 res.2.2.1 res.2.2.2 ∧
      anyAvailable res.1.locations = false ∧ t ≤ res.2.1 := by
  intro fuel
  induction fuel with
  | zero =>
    intro w t sealed cur hli res hres
    unfold simLoop at hres
    by_cases hav : anyAvailable w.locations = true
    · rw [if_pos hav] at hres
      exact Option.noConfusion hres
    · rw [if_neg hav] at hres
      rw [Bool.not_eq_true] at hav
      injection hres with hres
      subst hres
      exact ⟨hli, hav, Nat.le_refl t⟩
  | succ fuel ih =>
    intro w t sealed cur hli res hres
    unfold simLoop at hres
    by_cases hav : anyAvailable w.locations = true
    · rw [if_pos hav] at hres
      dsimp only at hres
      by_cases hck : decide ((t % 86400) ∈ w.check_schedule) = true
      · rw [if_pos hck] at hres
        have hcs : w.check_schedule = w0.check_schedule := hli.inv.statics.2.2.2.1
        have hck0 : (t % 86400) ∈ w0.check_schedule := by
          rw [← hcs]
          exact of_decide_eq_true hck
        obtain ⟨B, hB1, hB2, hB3, hB4, hB5⟩ :=
          do_actions_spec w0 hnd0 hne hsch w t cur innerFuel
            (histActs (sealed ++ [cur])) hli.inv
        set D := do_actions w t cur innerFuel with hD0
        have hcurbal : D.2.balance = cur.balance := by
          rw [hB1]
        have hflat2 : histActs (sealed ++ [D.2]) = histActs (sealed ++ [cur]) ++ B := by
          rw [histActs_append, histActs_append, histActs_single, histActs_single, hB1]
          simp [List.append_assoc]
        have hflat : histActs ((sealed ++ [D.2]) ++ [snapshot D.1 t]) =
            histActs (sealed ++ [cur]) ++ B := by
          rw [histActs_append, histActs_single, ← hflat2]
          simp [snapshot]
        have hli' : LoopInv w0 D.1 (t + 1) (sealed ++ [D.2]) (snapshot D.1 t) := by
          refine ⟨?_, ?_, ?_, ?_, rfl, ?_, ?_⟩
          · rw [hflat]
            exact hB2
          · rw [List.chain'_append]
            obtain ⟨hc1, hc2, hc3⟩ := List.chain'_append.mp hli.chain
            refine ⟨?_, List.chain'_singleton _, ?_⟩
            · rw [List.chain'_append]
              refine ⟨hc1, List.chain'_singleton _, ?_⟩
              intro x hx y hy
              simp only [List.head?_cons, Option.mem_some_iff] at hy
              have := hc3 x hx cur (by simp)
              rw [← hy]
              show D.2.balance = runBal x.balance x.actions
              rw [hcurbal]
              exact this
            · intro x hx y hy
              rw [List.getLast?_concat] at hx
              simp only [List.head?_cons, Option.mem_some_iff] at hy
              simp only [Option.mem_some_iff] at hx
              rw [← hx, ← hy]
              show (snapshot D.1 t).balance = runBal D.2.balance D.2.actions
              show D.1.balance = runBal D.2.balance D.2.actions
              rw [hB2.bal, hcurbal, hB1]
              show runBal w0.balance (histActs (sealed ++ [cur]) ++ B) =
                runBal cur.balance (cur.actions ++ B)
              rw [hli.curBal, ← runBal_append]
              rw [histActs_append, histActs_single]
              rw [List.append_assoc]
          · intro s hs
            cases sealed with
            | nil =>
              simp only [List.nil_append, List.cons_append, List.head?_cons,
                Option.mem_some_iff] at hs
              have hold := hli.headBal cur (by simp)
              rw [← hs]
              rw [hcurbal]
              exact hold
            | cons s0 ss =>
              simp only [List.cons_append, List.head?_cons, Option.mem_some_iff] at hs
              rw [← hs]
              exact hli.headBal s0 (by simp)
          · show (snapshot D.1 t).balance = runBal w0.balance (histActs (sealed ++ [D.2]))
            show D.1.balance = runBal w0.balance (histActs (sealed ++ [D.2]))
            rw [hB2.bal, hflat2]
          · intro a ha hap
            rw [hflat] at ha
            rcases List.mem_append.mp ha with ha | ha
            · have := hli.pf3 a ha hap
              omega
            · have := hB3 a ha hap
              omega
          · intro u hu hum hunf
            rw [hflat, passivesAt_append]
            by_cases hut : u = t
            · subst hut
              rw [passivesAt_lt_nil hli.pf3, passivesAt_self_filter hB3]
              simp only [List.nil_append]
              exact hB4 hum hunf
            · rw [passivesAt_ne_nil hB3 hut]
              rw [List.append_nil]
              exact hli.pf4 u (by omega) hum hunf
        obtain ⟨ha, hb, hc⟩ := ih D.1 (t + 1) (sealed ++ [D.2]) (snapshot D.1 t) hli' res hres
        exact ⟨ha, hb, by omega⟩
      · rw [if_neg hck] at hres
        have hmem : (t % 86400) ∉ w.check_schedule := by
          intro hm
          exact hck (decide_eq_true hm)
        have hD : do_actions w t cur innerFuel = (w, cur) := by
          unfold do_actions
          rw [if_neg hmem]
        rw [hD] at hres
        have hcs : w.check_schedule = w0.check_schedule := hli.inv.statics.2.2.2.1
        have hli' : LoopInv w0 w (t + 1) sealed cur := by
          refine ⟨hli.inv, hli.chain, hli.headBal, hli.curBal, hli.snapLocs, ?_, ?_⟩
          · intro a ha hap
            have := hli.pf3 a ha hap
            omega
          · intro u hu hum hunf
            by_cases hut : u = t
            · exfalso
              subst hut
              rw [← hcs] at hum
              exact hmem hum
            · exact hli.pf4 u (by omega) hum hunf
        obtain ⟨ha, hb, hc⟩ := ih w (t + 1) sealed cur hli' res hres
        exact ⟨ha, hb, by omega⟩
    · rw [if_neg hav] at hres
      rw [Bool.not_eq_true] at hav
      injection hres with hres
      subst hres
      exact ⟨hli, hav, Nat.le_refl t⟩

/-- Everything `simulate` guarantees about a returned response, relative to
the initialized start state `w0`: the master invariant over the recorded
action history, the balance chain across history states, the final snapshot,
the stop reason, and the passive-income bookkeeping. -/
def RunOk (w0 : Workflow) (r : SimulationResponse) : Prop :=
  r.history ≠ [] ∧
  ∃ wF, Inv w0 wF (histActs r.history) ∧
    List.Chain' StateStep r.history ∧
    (∀ s ∈ r.history.head?, s.balance = w0.balance) ∧
    (∀ s ∈ r.history.getLast?, s.locations = snapshotLocs wF.locations) ∧
    anyAvailable wF.locations = false ∧
    r.stop_reason = stopReasonOf wF ∧
    (∀ a ∈ histActs r.history, a.type = ActionType.passive_income →
      a.timestamp < r.timestamp) ∧
    (∀ u, u < r.timestamp → (u % 86400) ∈ w0.check_schedule →
      ¬(u < 86400 ∧ u = listMinD w0.check_schedule) →
      (passivesAt (histActs r.history) u).length = 1)

/-- The master run lemma: a returned simulation satisfies `RunOk` relative
to its initialized start state. -/
theorem simulate_RunOk (w : Workflow) (simId : String) (fuel innerFuel : ℕ)
    (hwf : WF (initWorkflow w)) (r : SimulationResponse)
    (hr : Workflow.simulate w simId fuel innerFuel = some r) :
    RunOk (initWorkflow w) r := by
  obtain ⟨hul, hmax, hsne, hslt, hlne, hnd, hloc⟩ := hwf
  set w0 := initWorkflow w with hw0
  unfold Workflow.simulate at hr
  by_cases hemp : w.locations.isEmpty = true
  · rw [if_pos hemp] at hr
    exact Option.noConfusion hr
  · rw [if_neg hemp] at hr
    dsimp only at hr
    cases hsl : simLoop innerFuel fuel w0 0 [] (snapshot w0 0) with
    | none =>
      rw [hsl] at hr
      exact Option.noConfusion hr
    | some res =>
      obtain ⟨w2, tEnd, sealed, curF⟩ := res
      rw [hsl] at hr
      injection hr with hr
      subst hr
      have hliInit : LoopInv w0 w0 0 [] (snapshot w0 0) := by
        refine ⟨?_, List.chain'_singleton _, ?_, rfl, rfl, ?_, ?_⟩
        · exact Inv_init w0 ⟨hul, hmax, hsne, hslt, hlne, hnd, hloc⟩
        · intro s hs
          simp only [List.nil_append, List.head?_cons, Option.mem_some_iff] at hs
          rw [← hs]
          rfl
        · intro a ha
          simp [histActs, snapshot] at ha
        · intro u hu
          omega
      have hnd0 : (w0.locations.map Prod.fst).Nodup := hnd
      obtain ⟨hliF, havF, _⟩ :=
        simLoop_spec w0 innerFuel hnd0 hsne hslt fuel w0 0 [] (snapshot w0 0)
          hliInit (w2, tEnd, sealed, curF) hsl
      refine ⟨by simp, w2, hliF.inv, hliF.chain, hliF.headBal, ?_, havF, rfl, hliF.pf3, ?_⟩
      · intro s hs
        show s.locations = snapshotLocs w2.locations
        rw [List.getLast?_concat] at hs
        simp only [Option.mem_some_iff] at hs
        rw [← hs]
        exact hliF.snapLocs
      · intro u hu hum hunf
        exact hliF.pf4 u hu hum hunf

/-! ### Stop reason, user-level bound, and permanently blocked locations -/

theorem findCurNext_all_unavailable :
    ∀ L : List (ℕ × Location), (∀ p ∈ L, p.2.available = false) →
    findCurNext L none = (none, none) := by
  intro L
  induction L with
  | nil =>
    intro _
    rfl
  | cons p rest ih =>
    intro h
    unfold findCurNext
    rw [if_neg]
    · exact ih (fun q hq => h q (List.mem_cons_of_mem p hq))
    · rw [h p (by simp)]
      exact fun hc => Bool.noConfusion hc

/-- When every location is unavailable, `simulate`'s stop reason is the
catalog-exhausted message. -/
theorem stopReasonOf_exhausted (w : Workflow)
    (h : ∀ p ∈ w.locations, p.2.available = false) :
    stopReasonOf w = "Location " ++ toString (listMaxD (w.locations.map Prod.fst)) ++
      " - received, reached the limit of locations" := by
  unfold stopReasonOf
  have hall : ∀ p ∈ List.insertionSort (fun a b => a.1 ≤ b.1) w.locations,
      p.2.available = false := by
    intro p hp
    exact h p ((List.perm_insertionSort _ _).mem_iff.mp hp)
  rw [findCurNext_all_unavailable _ hall]

/-- The recorded history never takes the user level above the table
maximum: at every prefix, the replayed user level is bounded. -/
theorem runBal_userLevel_le (w0 : Workflow) (A : List ActionRec)
    (hacts : PrefixFacts (fun A₁ a => ConsAct w0 (runBal w0.balance A₁) a) A)
    (hbase : w0.balance.user_level ≤ w0.maxUserLevel) :
    ∀ A₁ A₂, A = A₁ ++ A₂ → (runBal w0.balance A₁).user_level ≤ w0.maxUserLevel := by
  intro A₁
  induction A₁ using List.reverseRecOn with
  | nil =>
    intro A₂ h
    exact hbase
  | append_singleton as a ihs =>
    intro A₂ h
    have hc := hacts as a A₂ (by rw [h]; simp)
    rw [runBal_append]
    show (applyRec (runBal w0.balance as) a).user_level ≤ w0.maxUserLevel
    unfold applyRec
    cases hty : a.type with
    | level_up =>
      have hl := hc.2.2.2.2.2.2.1 hty
      exact hl.2.2.1
    | passive_income =>
      exact ihs (a :: A₂) (by rw [h]; simp)
    | tapping_income =>
      exact ihs (a :: A₂) (by rw [h]; simp)
    | location_upgrade =>
      exact ihs (a :: A₂) (by rw [h]; simp)

/-- A location whose minimum character level exceeds the table maximum is
never upgraded. -/
theorem upgradesOf_blocked (w0 : Workflow) (A : List ActionRec) (i : ℕ)
    (loc0 : Location)
    (hacts : PrefixFacts (fun A₁ a => ConsAct w0 (runBal w0.balance A₁) a) A)
    (hbase : w0.balance.user_level ≤ w0.maxUserLevel)
    (h0 : lookupLoc w0.locations i = some loc0)
    (hblock : w0.maxUserLevel < loc0.min_character_level) :
    upgradesOf A i = [] := by
  rw [upgradesOf, List.filter_eq_nil_iff]
  intro a ha hfa
  simp only [isUpgradeOf, Bool.and_eq_true, decide_eq_true_eq] at hfa
  obtain ⟨A₁, A₂, hdec⟩ := List.append_of_mem ha
  have hc := hacts A₁ a A₂ hdec
  obtain ⟨loc0', hl0', _, _, _, _, _, hmin, _⟩ := hc.2.2.2.2.2.2.2.1 hfa.1
  rw [hfa.2, h0] at hl0'
  injection hl0' with hl0'
  have hle := runBal_userLevel_le w0 A hacts hbase A₁ (a :: A₂) hdec
  rw [← hl0'] at hmin
  omega

/-- With a permanently blocked location in the catalog, some location stays
available forever. -/
theorem blocked_available (w0 w : Workflow) (A : List ActionRec)
    (hinv : Inv w0 w A)
    (hbase : w0.balance.user_level ≤ w0.maxUserLevel)
    (i : ℕ) (loc0 : Location) (h0 : lookupLoc w0.locations i = some loc0)
    (hblock : w0.maxUserLevel < loc0.min_character_level)
    (hpos : 0 < loc0.numLevels) :
    anyAvailable w.locations = true := by
  obtain ⟨loc, hl, hs⟩ := hinv.locs i loc0 h0
  obtain ⟨hs1, hs2, hs3, hs4, hs5, hs6, hs7, hs8, hs9, hs10⟩ := hs
  have hup : upgradesOf A i = [] :=
    upgradesOf_blocked w0 A i loc0 hinv.acts hbase h0 hblock
  have hav : loc.available = true := by
    apply hs7.mpr
    rw [hs5, hup, hs2]
    simpa using hpos
  unfold anyAvailable
  rw [List.any_eq_true]
  exact ⟨(i, loc), lookupLoc_mem hl, hav⟩

/-- With a permanently blocked location, the outer simulation loop never
exits: it exhausts any amount of fuel (the Python loop runs forever). -/
theorem simLoop_blocked (w0 : Workflow) (innerFuel : ℕ)
    (hnd0 : (w0.locations.map Prod.fst).Nodup)
    (hne : w0.check_schedule ≠ [])
    (hsch : ∀ c ∈ w0.check_schedule, c < 86400)
    (hbase : w0.balance.user_level ≤ w0.maxUserLevel)
    (i : ℕ) (loc0 : Location) (h0 : lookupLoc w0.locations i = some loc0)
    (hblock : w0.maxUserLevel < loc0.min_character_level)
    (hpos : 0 < loc0.numLevels) :
    ∀ (fuel : ℕ) (w : Workflow) (t : ℕ) (sealed : List StateRec) (cur : StateRec)
      (A : List ActionRec), Inv w0 w A →
      simLoop innerFuel fuel w t sealed cur = none := by
  intro fuel
  induction fuel with
  | zero =>
    intro w t sealed cur A hinv
    have hav := blocked_available w0 w A hinv hbase i loc0 h0 hblock hpos
    unfold simLoop
    rw [if_pos hav]
  | succ fuel ih =>
    intro w t sealed cur A hinv
    have hav := blocked_available w0 w A hinv hbase i loc0 h0 hblock hpos
    unfold simLoop
    rw [if_pos hav]
    dsimp only
    obtain ⟨B, hB1, hB2, _, _, _⟩ :=
      do_actions_spec w0 hnd0 hne hsch w t cur innerFuel A hinv
    by_cases hck : decide ((t % 86400) ∈ w.check_schedule) = true
    · rw [if_pos hck]
      exact ih _ _ _ _ _ hB2
    · rw [if_neg hck]
      exact ih _ _ _ _ _ hB2

/-! ### Claim-level extraction lemmas -/

theorem histActs_cons (s : StateRec) (h : List StateRec) :
    histActs (s :: h) = s.actions ++ histActs h := rfl

/-- An element's position in a `range' 1 n` list determines its value. -/
theorem range'_decomp {pre post : List ℕ} {v n : ℕ}
    (h : pre ++ v :: post = List.range' 1 n) : v = pre.length + 1 := by
  have hlen : n = post.length + 1 + pre.length := by
    have := congrArg List.length h
    simp at this
    omega
  subst hlen
  rw [← List.range'_append 1 pre.length (post.length + 1) 1] at h
  obtain ⟨h1, h2⟩ := List.append_inj h (by simp)
  rw [List.range'_succ] at h2
  injection h2 with hv _
  omega

/-- The replayed `earn_per_sec` is always one of the user-level table's
rates; it stays nonnegative when the table's rates are. -/
theorem runBal_earn_nonneg (w0 : Workflow) (A : List ActionRec)
    (hacts : PrefixFacts (fun A₁ a => ConsAct w0 (runBal w0.balance A₁) a) A)
    (hearn0 : 0 ≤ w0.balance.earn_per_sec)
    (hearnT : ∀ l, 0 ≤ (w0.user_levels l).gold_per_sec) :
    ∀ A₁ A₂, A = A₁ ++ A₂ → 0 ≤ (runBal w0.balance A₁).earn_per_sec := by
  intro A₁
  induction A₁ using List.reverseRecOn with
  | nil =>
    intro A₂ h
    exact hearn0
  | append_singleton as a ihs =>
    intro A₂ h
    have hc := hacts as a A₂ (by rw [h]; simp)
    rw [runBal_append]
    show 0 ≤ (applyRec (runBal w0.balance as) a).earn_per_sec
    unfold applyRec
    cases hty : a.type with
    | level_up =>
      have hl := hc.2.2.2.2.2.2.1 hty
      show 0 ≤ a.new_earn_per_sec
      rw [hl.2.2.2.2.2.1]
      exact hearnT _
    | passive_income =>
      exact ihs (a :: A₂) (by rw [h]; simp)
    | tapping_income =>
      exact ihs (a :: A₂) (by rw [h]; simp)
    | location_upgrade =>
      exact ihs (a :: A₂) (by rw [h]; simp)

/-- Replaying any middle block of the recorded history never decreases
`xp`, `keys` or `user_level`. -/
theorem runBal_prefix_mono (w0 : Workflow) (A : List ActionRec)
    (hacts : PrefixFacts (fun A₁ a => ConsAct w0 (runBal w0.balance A₁) a) A) :
    ∀ (B P Q : List ActionRec), A = P ++ (B ++ Q) →
      (runBal w0.balance P).xp ≤ (runBal w0.balance (P ++ B)).xp ∧
      (runBal w0.balance P).keys ≤ (runBal w0.balance (P ++ B)).keys ∧
      (runBal w0.balance P).user_level ≤ (runBal w0.balance (P ++ B)).user_level := by
  intro B
  induction B with
  | nil =>
    intro P Q h
    rw [List.append_nil]
    exact ⟨Nat.le_refl _, Nat.le_refl _, Nat.le_refl _⟩
  | cons a B2 ih =>
    intro P Q h
    have hdec : A = P ++ a :: (B2 ++ Q) := by
      rw [h]
      simp
    have hc := hacts P a (B2 ++ Q) hdec
    have hPa : runBal w0.balance (P ++ [a]) = applyRec (runBal w0.balance P) a := by
      rw [runBal_append]
      rfl
    have hxp : (applyRec (runBal w0.balance P) a).xp = a.xp_after := by
      unfold applyRec
      cases a.type <;> rfl
    have hkeys : (applyRec (runBal w0.balance P) a).keys = a.keys_after := by
      unfold applyRec
      cases a.type <;> rfl
    have hstep : (runBal w0.balance P).xp ≤ (runBal w0.balance (P ++ [a])).xp ∧
        (runBal w0.balance P).keys ≤ (runBal w0.balance (P ++ [a])).keys ∧
        (runBal w0.balance P).user_level ≤ (runBal w0.balance (P ++ [a])).user_level := by
      rw [hPa]
      refine ⟨?_, ?_, ?_⟩
      · rw [hxp, hc.2.2.2.2.1, hc.2.1]
        omega
      · rw [hkeys, hc.2.2.2.2.2.1, hc.2.2.1]
        omega
      · unfold applyRec
        cases hty : a.type with
        | level_up =>
          have hl := hc.2.2.2.2.2.2.1 hty
          show (runBal w0.balance P).user_level ≤ a.new_level
          rw [hl.2.1]
          omega
        | passive_income => exact Nat.le_refl _
        | tapping_income => exact Nat.le_refl _
        | location_upgrade => exact Nat.le_refl _
    have ih2 := ih (P ++ [a]) Q (by rw [h]; simp)
    have hassoc : P ++ a :: B2 = (P ++ [a]) ++ B2 := by simp
    rw [hassoc]
    exact ⟨Nat.le_trans hstep.1 ih2.1, Nat.le_trans hstep.2.1 ih2.2.1,
      Nat.le_trans hstep.2.2 ih2.2.2⟩

/-- Monotonicity of `xp`, `keys` and `user_level` across consecutive history
states, given the recorded per-state balance chain. -/
theorem states_mono (w0 : Workflow) (A : List ActionRec)
    (hacts : PrefixFacts (fun A₁ a => ConsAct w0 (runBal w0.balance A₁) a) A) :
    ∀ (h : List StateRec) (P Q : List ActionRec),
      A = P ++ (histActs h ++ Q) →
      List.Chain' StateStep h →
      (∀ s ∈ h.head?, s.balance = runBal w0.balance P) →
      List.Chain' (fun s s' =>
        s.balance.xp ≤ s'.balance.xp ∧ s.balance.keys ≤ s'.balance.keys ∧
        s.balance.user_level ≤ s'.balance.user_level) h := by
  intro h
  induction h with
  | nil =>
    intro P Q _ _ _
    exact List.chain'_nil
  | cons s rest ih =>
    intro P Q hA hch hhd
    cases rest with
    | nil => exact List.chain'_singleton _
    | cons s2 rest2 =>
      rw [List.chain'_cons] at hch ⊢
      have hsbal : s.balance = runBal w0.balance P := hhd s (by simp)
      have hs2bal : s2.balance = runBal w0.balance (P ++ s.actions) := by
        rw [hch.1, hsbal, ← runBal_append]
      have hA2 : A = P ++ (s.actions ++ (histActs (s2 :: rest2) ++ Q)) := by
        rw [hA, histActs_cons]
        simp
      refine ⟨?_, ?_⟩
      · obtain ⟨h1, h2, h3⟩ := runBal_prefix_mono w0 A hacts s.actions P
          (histActs (s2 :: rest2) ++ Q) hA2
        rw [hsbal, hs2bal]
        exact ⟨h1, h2, h3⟩
      · apply ih (P ++ s.actions) Q
        · rw [hA, histActs_cons]
          simp
        · exact hch.2
        · intro x hx
          simp only [List.head?_cons, Option.mem_some_iff] at hx
          rw [← hx]
          exact hs2bal

/-! ### Example configurations -/

/-- The single-location example configuration of spec §8: one location with
one level (cost 100, xp reward 10, key reward 1), one daily check at second
0, starting gold 1000, sequential policy, no tapping. -/
def exLoc : Location :=
  { min_character_level := 1
    numLevels := 1
    levels := fun _ => ⟨100, 10⟩
    keys := 1
    available := true
    current_level := 0
    cooldown_until := 0 }

def exW : Workflow :=
  { locations := [(1, exLoc)]
    cooldowns := fun _ => 10
    user_levels := fun _ => ⟨1000000, 1, 0⟩
    maxUserLevel := 1
    check_schedule := [0]
    balance := ⟨0, 0, 0, 1, 0⟩
    economy := ⟨⟨1000, 1, 1⟩, 60⟩
    simulation_algorithm := SimulationAlgorithm.SEQUENTIAL
    tapping_config := none }

/-- The response of the example run (the run returns within fuel 2). -/
def exRun : SimulationResponse :=
  (Workflow.simulate exW "s" 2 10).getD ⟨"", 0, [], ""⟩

/-- The single recorded action of the example run (the one upgrade). -/
def exAct : ActionRec :=
  (histActs exRun.history).headD { type := ActionType.passive_income, timestamp := 0 }

theorem exRun_eq : Workflow.simulate exW "s" 2 10 = some exRun := by
  with_unfolding_all rfl

theorem exW_wf : WF (initWorkflow exW) := by
  refine ⟨rfl, by decide, by decide, by decide, ?_, by decide, ?_⟩
  · intro h
    exact List.noConfusion h
  · intro p hp
    rcases List.mem_cons.mp hp with h | h
    · subst h
      exact ⟨rfl, rfl, rfl, by decide⟩
    · simp at h

/-- A configuration with a permanently blocked location: location 2 requires
character level 2, but the user-level table ends at level 1, so location 2
can never be upgraded and stays available forever. -/
def blockedLoc1 : Location :=
  { min_character_level := 1
    numLevels := 1
    levels := fun _ => ⟨100, 10⟩
    keys := 0
    available := true
    current_level := 0
    cooldown_until := 0 }

def blockedLoc2 : Location :=
  { min_character_level := 2
    numLevels := 1
    levels := fun _ => ⟨100, 10⟩
    keys := 0
    available := true
    current_level := 0
    cooldown_until := 0 }

def cfgBlocked : Workflow :=
  { locations := [(1, blockedLoc1), (2, blockedLoc2)]
    cooldowns := fun _ => 10
    user_levels := fun _ => ⟨1000000, 1, 0⟩
    maxUserLevel := 1
    check_schedule := [0]
    balance := ⟨0, 0, 0, 1, 0⟩
    economy := ⟨⟨1000, 1, 1⟩, 60⟩
    simulation_algorithm := SimulationAlgorithm.SEQUENTIAL
    tapping_config := none }

/-- C5: the spec claims that a run whose remaining available location is
permanently level-gated still terminates, with the level-gate stop reason.
In the code the outer `while any(location.available)` loop never exits on
such a configuration (the level-gate stop-reason branch after the loop is
dead code): the model returns `none` for every amount of fuel, i.e. the
Python loop runs forever. -/
theorem C5_blocked_config_never_returns :
    ∀ fuel innerFuel : ℕ, Workflow.simulate cfgBlocked "sim" fuel innerFuel = none := by
  intro fuel innerFuel
  have hwf : WF (initWorkflow cfgBlocked) := by
    refine ⟨rfl, by decide, by decide, by decide, ?_, by decide, ?_⟩
    · intro h
      exact List.noConfusion h
    · intro p hp
      rcases List.mem_cons.mp hp with h | h
      · subst h
        exact ⟨rfl, rfl, rfl, by decide⟩
      · rcases List.mem_cons.mp h with h2 | h2
        · subst h2
          exact ⟨rfl, rfl, rfl, by decide⟩
        · simp at h2
  have hlk : lookupLoc (initWorkflow cfgBlocked).locations 2 = some blockedLoc2 := rfl
  unfold Workflow.simulate
  rw [if_neg (by decide)]
  dsimp only
  rw [simLoop_blocked (initWorkflow cfgBlocked) innerFuel (by decide) (by decide)
    (by decide) (by decide) 2 blockedLoc2 hlk (by decide) (by decide) fuel
    (initWorkflow cfgBlocked) 0 [] (snapshot (initWorkflow cfgBlocked) 0) []
    (Inv_init (initWorkflow cfgBlocked) hwf)]

/-- C8: the engine is deterministic: two `Workflow` instances with identical
configuration fields and the same simulation id produce identical results
(histories, timestamp and stop reason). -/
theorem C8_determinism (w₁ w₂ : Workflow) (simId : String) (fuel innerFuel : ℕ)
    (h1 : w₁.locations = w₂.locations) (h2 : w₁.cooldowns = w₂.cooldowns)
    (h3 : w₁.user_levels = w₂.user_levels) (h4 : w₁.maxUserLevel = w₂.maxUserLevel)
    (h5 : w₁.check_schedule = w₂.check_schedule) (h6 : w₁.balance = w₂.balance)
    (h7 : w₁.economy = w₂.economy)
    (h8 : w₁.simulation_algorithm = w₂.simulation_algorithm)
    (h9 : w₁.tapping_config = w₂.tapping_config) :
    Workflow.simulate w₁ simId fuel innerFuel =
      Workflow.simulate w₂ simId fuel innerFuel := by
  obtain ⟨l₁, c₁, u₁, m₁, s₁, b₁, e₁, a₁, t₁⟩ := w₁
  obtain ⟨l₂, c₂, u₂, m₂, s₂, b₂, e₂, a₂, t₂⟩ := w₂
  dsimp only at h1 h2 h3 h4 h5 h6 h7 h8 h9
  subst h1
  subst h2
  subst h3
  subst h4
  subst h5
  subst h6
  subst h7
  subst h8
  subst h9
  rfl

theorem C8_determinism_witness :
    Workflow.simulate exW "s" 2 10 = Workflow.simulate exW "s" 2 10 :=
  C8_determinism exW exW "s" 2 10 rfl rfl rfl rfl rfl rfl rfl rfl rfl

/-- C9: whenever `simulate` returns, its stop reason is the
catalog-exhausted message if and only if every location in the final history
snapshot is unavailable (both sides always hold at return). -/
theorem C9_stop_reason_iff (w : Workflow) (simId : String) (fuel innerFuel : ℕ)
    (hwf : WF (initWorkflow w)) (r : SimulationResponse)
    (hr : Workflow.simulate w simId fuel innerFuel = some r) :
    ∃ s, r.history.getLast? = some s ∧
      (r.stop_reason =
          "Location " ++ toString (listMaxD (w.locations.map Prod.fst)) ++
            " - received, reached the limit of locations" ↔
        ∀ p ∈ s.locations, p.2.available = false) := by
  obtain ⟨hnonempty, wF, hinv, hch, hhd, hlast, hav, hsr, _, _⟩ :=
    simulate_RunOk w simId fuel innerFuel hwf r hr
  have hall := anyAvailable_false hav
  cases hgl : r.history.getLast? with
  | none =>
    exfalso
    exact hnonempty (List.getLast?_eq_none.mp hgl)
  | some s =>
    refine ⟨s, rfl, ?_⟩
    have hsl : s.locations = snapshotLocs wF.locations := by
      apply hlast
      rw [hgl]
      simp
    have hunav : ∀ p ∈ s.locations, p.2.available = false := by
      intro p hp
      rw [hsl] at hp
      unfold snapshotLocs at hp
      obtain ⟨q, hq, hpq⟩ := List.mem_map.mp hp
      rw [← hpq]
      exact hall q hq
    have hmsg : r.stop_reason =
        "Location " ++ toString (listMaxD (w.locations.map Prod.fst)) ++
          " - received, reached the limit of locations" := by
      rw [hsr, stopReasonOf_exhausted wF hall]
      have hids : wF.locations.map Prod.fst = w.locations.map Prod.fst := hinv.ids
      rw [hids]
    exact ⟨fun _ => hunav, fun _ => hmsg⟩

theorem C9_stop_reason_iff_witness :
    ∃ s, exRun.history.getLast? = some s ∧
      (exRun.stop_reason =
          "Location " ++ toString (listMaxD (exW.locations.map Prod.fst)) ++
            " - received, reached the limit of locations" ↔
        ∀ p ∈ s.locations, p.2.available = false) :=
  C9_stop_reason_iff exW "s" 2 10 exW_wf exRun exRun_eq

/-- C1: every `location_upgrade` action recorded by `simulate` was legal at
the moment it was committed: the location was still below its level cap
(available), the recorded gold covered the cost, the cooldown set by the
previous upgrade of that location had expired, and the player's level met
the location's minimum. -/
theorem C1_upgrade_legality (w : Workflow) (simId : String) (fuel innerFuel : ℕ)
    (hwf : WF (initWorkflow w)) (r : SimulationResponse)
    (hr : Workflow.simulate w simId fuel innerFuel = some r)
    (A₁ : List ActionRec) (u : ActionRec) (A₂ : List ActionRec)
    (hdec : histActs r.history = A₁ ++ u :: A₂)
    (hu : u.type = ActionType.location_upgrade) :
    ∃ loc0, lookupLoc (initWorkflow w).locations u.location_id = some loc0 ∧
      u.new_level = (upgradesOf A₁ u.location_id).length + 1 ∧
      u.new_level ≤ loc0.numLevels ∧
      u.gold_change = -((loc0.levels u.new_level).cost : ℚ) ∧
      ((loc0.levels u.new_level).cost : ℚ) ≤ u.gold_before ∧
      (∀ x ∈ (upgradesOf A₁ u.location_id).getLast?,
        x.timestamp + (initWorkflow w).cooldowns x.new_level ≤ u.timestamp) ∧
      loc0.min_character_level ≤ (runBal (initWorkflow w).balance A₁).user_level := by
  obtain ⟨_, wF, hinv, _⟩ := simulate_RunOk w simId fuel innerFuel hwf r hr
  rw [hdec] at hinv
  have hc := hinv.acts A₁ u A₂ rfl
  obtain ⟨loc0, hl0, hnl1, hnlle, hgc, hxc, hkc, hmin, hga⟩ :=
    hc.2.2.2.2.2.2.2.1 hu
  obtain ⟨loc, hl, hsync⟩ := hinv.locs u.location_id loc0 hl0
  obtain ⟨hs1, hs2, hs3, hs4, hs5, hs6, hs7, hs8, hs9, hs10⟩ := hsync
  have hupdec : upgradesOf (A₁ ++ u :: A₂) u.location_id =
      upgradesOf A₁ u.location_id ++ u :: upgradesOf A₂ u.location_id := by
    rw [upgradesOf_append, upgradesOf_upgrade_cons u A₂ u.location_id hu, if_pos rfl]
    simp
  have hposn : u.new_level = (upgradesOf A₁ u.location_id).length + 1 := by
    have h8 := hs8
    rw [hupdec, List.map_append, List.map_cons] at h8
    have := range'_decomp h8
    simpa using this
  have hcool : ∀ x ∈ (upgradesOf A₁ u.location_id).getLast?,
      x.timestamp + (initWorkflow w).cooldowns x.new_level ≤ u.timestamp := by
    intro x hx
    have h9 := hs9
    rw [hupdec] at h9
    obtain ⟨_, _, h3⟩ := List.chain'_append.mp h9
    exact h3 x hx u (by simp)
  refine ⟨loc0, hl0, hposn, hnlle, hgc, ?_, hcool, hmin⟩
  have h4 := hc.2.2.2.1
  rw [hgc] at h4
  rw [h4] at hga
  linarith

theorem C1_upgrade_legality_witness :
    ∃ loc0, lookupLoc (initWorkflow exW).locations exAct.location_id = some loc0 ∧
      exAct.new_level = (upgradesOf [] exAct.location_id).length + 1 ∧
      exAct.new_level ≤ loc0.numLevels ∧
      exAct.gold_change = -((loc0.levels exAct.new_level).cost : ℚ) ∧
      ((loc0.levels exAct.new_level).cost : ℚ) ≤ exAct.gold_before ∧
      (∀ x ∈ (upgradesOf [] exAct.location_id).getLast?,
        x.timestamp + (initWorkflow exW).cooldowns x.new_level ≤ exAct.timestamp) ∧
      loc0.min_character_level ≤ (runBal (initWorkflow exW).balance []).user_level :=
  C1_upgrade_legality exW "s" 2 10 exW_wf exRun exRun_eq [] exAct []
    (by with_unfolding_all rfl) (by with_unfolding_all rfl)

/-- C3: after every `location_upgrade` and its immediately following
cascade of `level_up` actions, either the user level is at the table maximum
or the xp no longer meets the next threshold; each `level_up` raises the
level by exactly one from the level in force at that point, sets the new
rate and credits the new level's key reward; and the level never exceeds the
table maximum. -/
theorem C3_level_up_cascade (w : Workflow) (simId : String) (fuel innerFuel : ℕ)
    (hwf : WF (initWorkflow w)) (r : SimulationResponse)
    (hr : Workflow.simulate w simId fuel innerFuel = some r) :
    (∀ A₁ u C A₂, histActs r.history = A₁ ++ u :: (C ++ A₂) →
      u.type = ActionType.location_upgrade →
      (∀ c ∈ C, c.type = ActionType.level_up) →
      (∀ x ∈ A₂.head?, x.type ≠ ActionType.level_up) →
      ((initWorkflow w).maxUserLevel ≤
          (runBal (initWorkflow w).balance (A₁ ++ u :: C)).user_level ∨
        (runBal (initWorkflow w).balance (A₁ ++ u :: C)).xp <
          ((initWorkflow w).user_levels
            ((runBal (initWorkflow w).balance (A₁ ++ u :: C)).user_level + 1)).xp_required)) ∧
    (∀ A₁ a A₂, histActs r.history = A₁ ++ a :: A₂ →
      a.type = ActionType.level_up →
      a.old_level = (runBal (initWorkflow w).balance A₁).user_level ∧
      a.new_level = (runBal (initWorkflow w).balance A₁).user_level + 1 ∧
      a.new_earn_per_sec = ((initWorkflow w).user_levels a.new_level).gold_per_sec ∧
      a.keys_change = ((initWorkflow w).user_levels a.new_level).keys_reward ∧
      a.new_level ≤ (initWorkflow w).maxUserLevel) ∧
    (runBal (initWorkflow w).balance (histActs r.history)).user_level ≤
      (initWorkflow w).maxUserLevel := by
  obtain ⟨_, wF, hinv, _⟩ := simulate_RunOk w simId fuel innerFuel hwf r hr
  refine ⟨?_, ?_, ?_⟩
  · intro A₁ u C A₂ hdec hu hC hA₂
    exact hinv.groups A₁ u C A₂ hdec hu hC hA₂
  · intro A₁ a A₂ hdec hty
    have hc := hinv.acts A₁ a A₂ hdec
    have hl := hc.2.2.2.2.2.2.1 hty
    exact ⟨hl.1, hl.2.1, hl.2.2.2.2.2.1, hl.2.2.2.2.2.2, hl.2.2.1⟩
  · rw [← hinv.bal]
    exact hinv.ulmax

theorem C3_level_up_cascade_witness :
    (∀ A₁ u C A₂, histActs exRun.history = A₁ ++ u :: (C ++ A₂) →
      u.type = ActionType.location_upgrade →
      (∀ c ∈ C, c.type = ActionType.level_up) →
      (∀ x ∈ A₂.head?, x.type ≠ ActionType.level_up) →
      ((initWorkflow exW).maxUserLevel ≤
          (runBal (initWorkflow exW).balance (A₁ ++ u :: C)).user_level ∨
        (runBal (initWorkflow exW).balance (A₁ ++ u :: C)).xp <
          ((initWorkflow exW).user_levels
            ((runBal (initWorkflow exW).balance (A₁ ++ u :: C)).user_level + 1)).xp_required)) ∧
    (∀ A₁ a A₂, histActs exRun.history = A₁ ++ a :: A₂ →
      a.type = ActionType.level_up →
      a.old_level = (runBal (initWorkflow exW).balance A₁).user_level ∧
      a.new_level = (runBal (initWorkflow exW).balance A₁).user_level + 1 ∧
      a.new_earn_per_sec = ((initWorkflow exW).user_levels a.new_level).gold_per_sec ∧
      a.keys_change = ((initWorkflow exW).user_levels a.new_level).keys_reward ∧
      a.new_level ≤ (initWorkflow exW).maxUserLevel) ∧
    (runBal (initWorkflow exW).balance (histActs exRun.history)).user_level ≤
      (initWorkflow exW).maxUserLevel :=
  C3_level_up_cascade exW "s" 2 10 exW_wf exRun exRun_eq

/-- C4: every recorded `passive_income` action sits at a check instant that
is not the run's first check-in, credits exactly `earn_per_sec` times the
time elapsed since the previous check-in instant (the engine's `last_check`
is exactly that instant), and carries matching before/after gold; and every
later check instant reached by the run records exactly one passive action. -/
theorem C4_passive_income (w : Workflow) (simId : String) (fuel innerFuel : ℕ)
    (hwf : WF (initWorkflow w)) (r : SimulationResponse)
    (hr : Workflow.simulate w simId fuel innerFuel = some r) :
    (∀ A₁ a A₂, histActs r.history = A₁ ++ a :: A₂ →
      a.type = ActionType.passive_income →
      IsCheckInstant (initWorkflow w).check_schedule a.timestamp ∧
      ¬(a.timestamp < 86400 ∧
        a.timestamp = listMinD (initWorkflow w).check_schedule) ∧
      IsPrevCheck (initWorkflow w).check_schedule a.timestamp
        (computeLastCheck (initWorkflow w).check_schedule a.timestamp) ∧
      a.gold_change = (runBal (initWorkflow w).balance A₁).earn_per_sec *
        ((a.timestamp -
          computeLastCheck (initWorkflow w).check_schedule a.timestamp : ℕ) : ℚ) ∧
      a.gold_before = (runBal (initWorkflow w).balance A₁).gold ∧
      a.gold_after = a.gold_before + a.gold_change) ∧
    (∀ u, u < r.timestamp → IsCheckInstant (initWorkflow w).check_schedule u →
      ¬(u < 86400 ∧ u = listMinD (initWorkflow w).check_schedule) →
      (passivesAt (histActs r.history) u).length = 1) := by
  obtain ⟨_, wF, hinv, _, _, _, _, _, hpf3, hpf4⟩ :=
    simulate_RunOk w simId fuel innerFuel hwf r hr
  obtain ⟨hul, hmax, hsne, hslt, _, _, _⟩ := hwf
  refine ⟨?_, ?_⟩
  · intro A₁ a A₂ hdec hty
    obtain ⟨hm, hne2, hlt, hgc⟩ := hinv.passive A₁ a A₂ hdec hty
    have hnf : ¬(a.timestamp < 86400 ∧
        a.timestamp = listMinD (initWorkflow w).check_schedule) :=
      fun hc => hne2 hc.2
    have hc := hinv.acts A₁ a A₂ hdec
    exact ⟨hm, hnf,
      computeLastCheck_isPrevCheck (initWorkflow w).check_schedule hsne hslt
        a.timestamp hm hnf, hgc, hc.1, hc.2.2.2.1⟩
  · intro u hu hum hnf
    exact hpf4 u hu hum hnf

theorem C4_passive_income_witness :
    (∀ A₁ a A₂, histActs exRun.history = A₁ ++ a :: A₂ →
      a.type = ActionType.passive_income →
      IsCheckInstant (initWorkflow exW).check_schedule a.timestamp ∧
      ¬(a.timestamp < 86400 ∧
        a.timestamp = listMinD (initWorkflow exW).check_schedule) ∧
      IsPrevCheck (initWorkflow exW).check_schedule a.timestamp
        (computeLastCheck (initWorkflow exW).check_schedule a.timestamp) ∧
      a.gold_change = (runBal (initWorkflow exW).balance A₁).earn_per_sec *
        ((a.timestamp -
          computeLastCheck (initWorkflow exW).check_schedule a.timestamp : ℕ) : ℚ) ∧
      a.gold_before = (runBal (initWorkflow exW).balance A₁).gold ∧
      a.gold_after = a.gold_before + a.gold_change) ∧
    (∀ u, u < exRun.timestamp →
      IsCheckInstant (initWorkflow exW).check_schedule u →
      ¬(u < 86400 ∧ u = listMinD (initWorkflow exW).check_schedule) →
      (passivesAt (histActs exRun.history) u).length = 1) :=
  C4_passive_income exW "s" 2 10 exW_wf exRun exRun_eq

/-- C6: under the SEQUENTIAL policy, an upgrade of location `i` is recorded
only when every configured location with a smaller id has already received
all of its upgrades (is fully maxed), and the recorded upgrade location ids
are non-decreasing across the run. -/
theorem C6_sequential_order (w : Workflow) (simId : String) (fuel innerFuel : ℕ)
    (halg : w.simulation_algorithm = SimulationAlgorithm.SEQUENTIAL)
    (hwf : WF (initWorkflow w)) (r : SimulationResponse)
    (hr : Workflow.simulate w simId fuel innerFuel = some r) :
    (∀ A₁ u A₂, histActs r.history = A₁ ++ u :: A₂ →
      u.type = ActionType.location_upgrade →
      ∀ j loc0, lookupLoc (initWorkflow w).locations j = some loc0 →
        j < u.location_id → (upgradesOf A₁ j).length = loc0.numLevels) ∧
    List.Chain' (fun i j => i ≤ j) (upgradeIds (histActs r.history)) := by
  obtain ⟨_, wF, hinv, _⟩ := simulate_RunOk w simId fuel innerFuel hwf r hr
  have halg0 : (initWorkflow w).simulation_algorithm =
      SimulationAlgorithm.SEQUENTIAL := halg
  refine ⟨?_, hinv.seqChain halg0⟩
  intro A₁ u A₂ hdec hu j loc0 hl hj
  exact hinv.seqMaxed halg0 A₁ u A₂ hdec hu j loc0 hl hj

theorem C6_sequential_order_witness :
    (∀ A₁ u A₂, histActs exRun.history = A₁ ++ u :: A₂ →
      u.type = ActionType.location_upgrade →
      ∀ j loc0, lookupLoc (initWorkflow exW).locations j = some loc0 →
        j < u.location_id → (upgradesOf A₁ j).length = loc0.numLevels) ∧
    List.Chain' (fun i j => i ≤ j) (upgradeIds (histActs exRun.history)) :=
  C6_sequential_order exW "s" 2 10 rfl exW_wf exRun exRun_eq

/-- C7: over a completed run, every location's recorded upgrade levels are
exactly `1..numLevels`; the flat key reward appears (as `keys_change` equal
to the location's `keys`) exactly on the upgrade whose `new_level` is the
location's maximum level and nowhere else, so it is credited exactly once;
and the final history snapshot shows the location unavailable. -/
theorem C7_final_key_reward (w : Workflow) (simId : String) (fuel innerFuel : ℕ)
    (hwf : WF (initWorkflow w)) (r : SimulationResponse)
    (hr : Workflow.simulate w simId fuel innerFuel = some r) :
    ∀ i loc0, lookupLoc (initWorkflow w).locations i = some loc0 →
      (upgradesOf (histActs r.history) i).map (fun u => u.new_level) =
        List.range' 1 loc0.numLevels ∧
      (∀ u ∈ upgradesOf (histActs r.history) i,
        u.keys_change = if loc0.numLevels = u.new_level then loc0.keys else 0) ∧
      ((upgradesOf (histActs r.history) i).filter
        (fun u => decide (u.new_level = loc0.numLevels))).length = 1 ∧
      (∀ s ∈ r.history.getLast?, ∀ p ∈ s.locations, p.1 = i →
        p.2.available = false) := by
  obtain ⟨_, wF, hinv, _, _, hlast, hav, _, _, _⟩ :=
    simulate_RunOk w simId fuel innerFuel hwf r hr
  have hloc := hwf.2.2.2.2.2.2
  intro i loc0 hl0
  have hnl1 : 1 ≤ loc0.numLevels := (hloc (i, loc0) (lookupLoc_mem hl0)).2.2.2
  obtain ⟨loc, hl, hsync⟩ := hinv.locs i loc0 hl0
  obtain ⟨hs1, hs2, hs3, hs4, hs5, hs6, hs7, hs8, hs9, hs10⟩ := hsync
  have hunav : loc.available = false := anyAvailable_false hav (i, loc) (lookupLoc_mem hl)
  have hfull : (upgradesOf (histActs r.history) i).length = loc0.numLevels := by
    have hnlt : ¬ loc.current_level < loc.numLevels := by
      intro hlt
      have := hs7.mpr hlt
      rw [hunav] at this
      exact Bool.noConfusion this
    rw [hs5, hs2] at hnlt
    omega
  have hmap : (upgradesOf (histActs r.history) i).map (fun u => u.new_level) =
      List.range' 1 loc0.numLevels := by
    rw [hs8, hfull]
  refine ⟨hmap, ?_, ?_, ?_⟩
  · intro u hu
    have hmem := List.mem_filter.mp hu
    obtain ⟨A₁, A₂, hdec⟩ := List.append_of_mem hmem.1
    have hc := hinv.acts A₁ u A₂ hdec
    have hfa := hmem.2
    simp only [isUpgradeOf, Bool.and_eq_true, decide_eq_true_eq] at hfa
    obtain ⟨loc0', hl0', _, _, _, _, hkc, _, _⟩ := hc.2.2.2.2.2.2.2.1 hfa.1
    rw [hfa.2, hl0] at hl0'
    injection hl0' with he
    rw [hkc, he]
  · have hcnt : ((upgradesOf (histActs r.history) i).filter
        (fun u => decide (u.new_level = loc0.numLevels))).length =
        List.countP (fun v => decide (v = loc0.numLevels))
          ((upgradesOf (histActs r.history) i).map (fun u => u.new_level)) := by
      rw [List.countP_map, List.countP_eq_length_filter]
      rfl
    rw [hcnt, hmap]
    obtain ⟨m, hm⟩ : ∃ m, loc0.numLevels = m + 1 := ⟨loc0.numLevels - 1, by omega⟩
    rw [hm, List.range'_concat]
    rw [List.countP_append]
    have hz : List.countP (fun v => decide (v = m + 1)) (List.range' 1 m) = 0 := by
      rw [List.countP_eq_zero]
      intro a ha
      rw [List.mem_range'_1] at ha
      simp only [decide_eq_true_eq]
      omega
    rw [hz]
    simp only [List.countP_cons, List.countP_nil, Nat.zero_add]
    rw [if_pos]
    simp only [decide_eq_true_eq]
    omega
  · intro s hs p hp hpi
    have hsl : s.locations = snapshotLocs wF.locations := hlast s hs
    rw [hsl] at hp
    unfold snapshotLocs at hp
    obtain ⟨q, hq, hpq⟩ := List.mem_map.mp hp
    rw [← hpq]
    exact anyAvailable_false hav q hq

theorem C7_final_key_reward_witness :
    (upgradesOf (histActs exRun.history) 1).map (fun u => u.new_level) =
      List.range' 1 exLoc.numLevels ∧
    (∀ u ∈ upgradesOf (histActs exRun.history) 1,
      u.keys_change = if exLoc.numLevels = u.new_level then exLoc.keys else 0) ∧
    ((upgradesOf (histActs exRun.history) 1).filter
      (fun u => decide (u.new_level = exLoc.numLevels))).length = 1 ∧
    (∀ s ∈ exRun.history.getLast?, ∀ p ∈ s.locations, p.1 = 1 →
      p.2.available = false) :=
  C7_final_key_reward exW "s" 2 10 exW_wf exRun exRun_eq 1 exLoc rfl

/-- C2: across the recorded history, each action's `xp` and `keys` never
decrease; gold decreases only on `location_upgrade` actions, and there by
exactly the level's cost; `passive_income`, `tapping_income` and `level_up`
actions never reduce gold (given nonnegative configured income rates); and
`xp`, `keys` and `user_level` are non-decreasing across consecutive history
states. -/
theorem C2_monotonicity (w : Workflow) (simId : String) (fuel innerFuel : ℕ)
    (hearnT : ∀ l, 0 ≤ ((initWorkflow w).user_levels l).gold_per_sec)
    (htap : ∀ tc, (initWorkflow w).tapping_config = some tc → 0 ≤ tc.gold_per_tap)
    (hwf : WF (initWorkflow w)) (r : SimulationResponse)
    (hr : Workflow.simulate w simId fuel innerFuel = some r) :
    (∀ A₁ a A₂, histActs r.history = A₁ ++ a :: A₂ →
      a.xp_before ≤ a.xp_after ∧
      a.keys_before ≤ a.keys_after ∧
      (a.type ≠ ActionType.location_upgrade → a.gold_before ≤ a.gold_after) ∧
      (a.type = ActionType.location_upgrade →
        ∃ loc0, lookupLoc (initWorkflow w).locations a.location_id = some loc0 ∧
          a.gold_before - a.gold_after = ((loc0.levels a.new_level).cost : ℚ))) ∧
    List.Chain' (fun s s2 =>
      s.balance.xp ≤ s2.balance.xp ∧ s.balance.keys ≤ s2.balance.keys ∧
      s.balance.user_level ≤ s2.balance.user_level) r.history := by
  obtain ⟨_, wF, hinv, hch, hhd, _⟩ := simulate_RunOk w simId fuel innerFuel hwf r hr
  have hearn0 : 0 ≤ (initWorkflow w).balance.earn_per_sec :=
    hearnT w.balance.user_level
  refine ⟨?_, ?_⟩
  · intro A₁ a A₂ hdec
    have hc := hinv.acts A₁ a A₂ hdec
    refine ⟨?_, ?_, ?_, ?_⟩
    · rw [hc.2.2.2.2.1]
      omega
    · rw [hc.2.2.2.2.2.1]
      omega
    · intro hne2
      have h4 := hc.2.2.2.1
      cases hty : a.type with
      | location_upgrade => exact absurd hty hne2
      | level_up =>
        have hl := hc.2.2.2.2.2.2.1 hty
        rw [h4, hl.2.2.2.1]
        simp
      | passive_income =>
        obtain ⟨_, _, k, hk⟩ := hc.2.2.2.2.2.2.2.2.1 hty
        have hge : 0 ≤ a.gold_change := by
          rw [hk]
          apply mul_nonneg
          · exact runBal_earn_nonneg (initWorkflow w) (histActs r.history)
              hinv.acts hearn0 hearnT A₁ (a :: A₂) hdec
          · exact_mod_cast Nat.zero_le k
        rw [h4]
        linarith
      | tapping_income =>
        obtain ⟨_, _, tc, htc, hchg⟩ := hc.2.2.2.2.2.2.2.2.2 hty
        have hge : 0 ≤ a.gold_change := by
          rw [hchg]
          apply mul_nonneg
          · apply mul_nonneg
            · exact_mod_cast Nat.zero_le tc.max_energy_capacity
            · norm_num
          · exact htap tc htc
        rw [h4]
        linarith
    · intro hty
      obtain ⟨loc0, hl0, _, _, hgc, _, _, _, _⟩ := hc.2.2.2.2.2.2.2.1 hty
      refine ⟨loc0, hl0, ?_⟩
      have h4 := hc.2.2.2.1
      rw [h4, hgc]
      ring
  · apply states_mono (initWorkflow w) (histActs r.history) hinv.acts r.history [] []
    · simp
    · exact hch
    · intro s hs
      rw [hhd s hs]
      rfl

theorem C2_monotonicity_witness :
    (∀ A₁ a A₂, histActs exRun.history = A₁ ++ a :: A₂ →
      a.xp_before ≤ a.xp_after ∧
      a.keys_before ≤ a.keys_after ∧
      (a.type ≠ ActionType.location_upgrade → a.gold_before ≤ a.gold_after) ∧
      (a.type = ActionType.location_upgrade →
        ∃ loc0, lookupLoc (initWorkflow exW).locations a.location_id = some loc0 ∧
          a.gold_before - a.gold_after = ((loc0.levels a.new_level).cost : ℚ))) ∧
    List.Chain' (fun s s2 =>
      s.balance.xp ≤ s2.balance.xp ∧ s.balance.keys ≤ s2.balance.keys ∧
      s.balance.user_level ≤ s2.balance.user_level) exRun.history :=
  C2_monotonicity exW "s" 2 10
    (fun l => by
      show (0 : ℚ) ≤ 1
      norm_num)
    (fun tc h => Option.noConfusion h)
    exW_wf exRun exRun_eq

end IdleSim
